import Mathlib

/-!
Verification development for the remora chunk-extraction pipeline
(`src/remora/data_chunks.py`).

The Python code is shallowly embedded as executable Lean definitions:

* numpy arrays and Python strings become `List Int` / `List Base`;
* Python slicing (including negative indices) is modelled by `pySlice`;
* normalized signal samples are modelled as integers, since no claim
  depends on floating-point arithmetic, only on lengths and identity of
  samples; proportions (`val_prop`) are modelled as exact rationals;
* code that can raise exceptions becomes `Except String α`, with the
  error string playing the role of the exception message / rejection
  reason recorded in the `reject_reasons` histogram;
* indexing that the callers guarantee to be in bounds
  (`seq_to_sig_map[m]`, `label_conv[...]`) is modelled totally with
  `getD`; theorems that depend on those values carry the corresponding
  bound as a hypothesis.
-/

/-- The canonical base alphabet `{A,C,G,T,N}` of `BASE_ENCODINGS`. -/
inductive Base where
  | A : Base
  | C : Base
  | G : Base
  | T : Base
  | N : Base
deriving DecidableEq, Repr

/-- `BASE_ENCODINGS`: one-hot encoding of a base into four boolean
channels; `N` maps to the all-zero vector. -/
def baseEnc : Base → List Bool
  | Base.A => [true, false, false, false]
  | Base.C => [false, true, false, false]
  | Base.G => [false, false, true, false]
  | Base.T => [false, false, false, true]
  | Base.N => [false, false, false, false]

/-- Python slice `l[i:j]` (step 1) with Python's normalization of
negative and out-of-range bounds. -/
def pySlice (l : List α) (i j : Int) : List α :=
  let n : Int := l.length
  let i' : Int := if i < 0 then max (n + i) 0 else min i n
  let j' : Int := if j < 0 then max (n + j) 0 else min j n
  (l.take j'.toNat).drop i'.toNat

/-- Python indexing `l[i]` on a string/array: negative indices wrap
once; out-of-range access is `none` (an `IndexError`). -/
def pyIndex (l : List α) (i : Int) : Option α :=
  let n : Int := l.length
  let i' : Int := if i < 0 then i + n else i
  if 0 ≤ i' ∧ i' < n then l.get? i'.toNat else none

/-- `np.searchsorted(a, v, side="right")` on a sorted array: the number
of elements `≤ v` (numpy performs a binary search; on sorted input this
is the documented result). -/
def searchsortedRight (a : List Int) (v : Int) : Nat :=
  (a.takeWhile (fun x => decide (x ≤ v))).length

/-- `np.searchsorted(a, v, side="left")` on a sorted array: the number
of elements `< v`. -/
def searchsortedLeft (a : List Int) (v : Int) : Nat :=
  (a.takeWhile (fun x => decide (x < v))).length

/-- Conversion to a 32-bit signed integer (`.astype(np.int32)` and
int32 wraparound arithmetic): reduce modulo `2^32` into
`[-2^31, 2^31)`. -/
def int32 (x : Int) : Int := (x + 2 ^ 31) % 2 ^ 32 - 2 ^ 31

/-- `RemoraRead`: normalized signal, canonical sequence, the
sequence-to-signal alignment map, read id, and the optional
integer-coded sequence used for labels. -/
structure RemoraRead where
  sig : List Int
  seq : List Base
  seq_to_sig_map : List Int
  read_id : String
  int_seq : Option (List Nat)
deriving DecidableEq, Repr

/-- `Chunk`: windowed excerpt of one read.  The two cache fields of the
Python dataclass (`_base_sig_lens`, `_seq_nn_input`) are memoization of
pure functions and are not part of the model state. -/
structure Chunk where
  signal : List Int
  sequence : List Base
  seq_to_sig_map : List Int
  before_context_seq : List Base
  after_context_seq : List Base
  sig_focus_pos : Int
  seq_focus_pos : Int
  label : Int
  read_id : String
  read_seq_pos : Int
deriving DecidableEq, Repr

/-- `Chunk.mask_focus_base`: replace the focus base by `N` unless it
already is `N`; Python string indexing may raise on an out-of-range
focus position, hence the `Except`. -/
def Chunk.mask_focus_base (c : Chunk) : Except String Chunk :=
  match pyIndex c.sequence c.seq_focus_pos with
  | none => .error "string index out of range"
  | some b =>
    if b = Base.N then .ok c
    else .ok { c with sequence :=
      (pySlice c.sequence 0 c.seq_focus_pos ++ [Base.N] ++
        pySlice c.sequence (c.seq_focus_pos + 1) c.sequence.length) }

/-- `Chunk.kmer_len`. -/
def Chunk.kmer_len (c : Chunk) : Nat :=
  c.before_context_seq.length + c.after_context_seq.length + 1

/-- `Chunk.seq_w_context`. -/
def Chunk.seq_w_context (c : Chunk) : List Base :=
  c.before_context_seq ++ c.sequence ++ c.after_context_seq

/-- `Chunk.base_sig_lens`: `np.diff(seq_to_sig_map)`.  The map is an
int32 array, so the differences are computed with int32 wraparound. -/
def Chunk.base_sig_lens (c : Chunk) : List Int :=
  c.seq_to_sig_map.zipWith (fun a b => int32 (b - a)) c.seq_to_sig_map.tail

/-- `np.repeat(cols, reps, axis=1)` on a matrix given by its list of
columns: each column is repeated by the matching entry of `reps`;
negative repeats and non-broadcastable lengths raise. -/
def npRepeatCols (cols : List (List Bool)) (reps : List Int) :
    Except String (List (List Bool)) :=
  if reps.any (fun r => decide (r < 0)) then
    .error "negative dimensions are not allowed"
  else if reps.length = cols.length then
    .ok (((cols.zip reps).map
      (fun p => List.replicate p.2.toNat p.1)).flatten)
  else if reps.length = 1 then
    .ok ((cols.map
      (fun col => List.replicate (reps.headD 0).toNat col)).flatten)
  else .error "operands could not be broadcast together"

/-- The `np.concatenate`/`np.stack` part of `Chunk.seq_nn_input`:
for each sliding offset, one-hot encode the length-`len(sequence)`
window of `seq_w_context`, stacking the blocks along the channel axis.
The matrix is represented by its list of columns (one column per base
of `sequence`, each of height `4 * kmer_len`).  `np.stack` of an empty
list and `np.concatenate` of ragged blocks raise. -/
def Chunk.enc_kmers (c : Chunk) : Except String (List (List Bool)) :=
  if c.sequence.length = 0 then .error "need at least one array to stack"
  else
    let blocks := (List.range c.kmer_len).map
      (fun off => ((c.seq_w_context.drop off).take c.sequence.length).map baseEnc)
    if blocks.all (fun b => b.length = c.sequence.length) then
      .ok ((List.range c.sequence.length).map
        (fun j => (blocks.map (fun b => b.getD j [])).flatten))
    else .error "all the input array dimensions must match"

/-- `Chunk.seq_nn_input`: the k-mer blocks expanded along the signal
axis by `base_sig_lens` (`np.repeat`).  Represented as the list of
columns; the number of columns is `shape[1]`. -/
def Chunk.seq_nn_input (c : Chunk) : Except String (List (List Bool)) :=
  c.enc_kmers >>= fun ek => npRepeatCols ek c.base_sig_lens

/-- `Chunk.check`: signal non-empty, encoded width equals the signal
length, and the sequence/map length relation. -/
def Chunk.check (c : Chunk) : Except String Unit :=
  if c.signal.length = 0 then .error "No signal for chunk"
  else match c.seq_nn_input with
  | .error e => .error e
  | .ok t =>
    if t.length ≠ c.signal.length then .error "Invalid encoded sig length"
    else if (c.sequence.length : Int) ≠ (c.seq_to_sig_map.length : Int) - 1 then
      .error "Invalid sig to seq map length"
    else .ok ()

/-- `Chunk.extract_chunk_from_read`.  When either sequence bound is
absent both are recomputed from the signal window with `searchsorted`.
The sub-map's first and last entries are overwritten by the exact
window edges before re-anchoring, and the re-anchored map is cast to
int32 (`.astype(np.int32)`), wrapping values outside `[-2^31, 2^31)`
(numpy raises on an empty sub-map). -/
def extractSeqBounds (read : RemoraRead) (sigStart sigEnd : Int)
    (seqStartO seqEndO : Option Int) : Int × Int :=
  match seqStartO, seqEndO with
  | some s, some e => (s, e)
  | _, _ => ((searchsortedRight read.seq_to_sig_map sigStart : Int) - 1,
    (searchsortedLeft read.seq_to_sig_map sigEnd : Int))

def Chunk.extract_chunk_from_read (read : RemoraRead) (kmer : Nat × Nat)
    (sigStart sigEnd : Int) (label : Int) (seqStartO seqEndO : Option Int)
    (sigFocusPos : Int) (readId : String) (readSeqPos : Int) :
    Except String Chunk :=
  let seqStart : Int := (extractSeqBounds read sigStart sigEnd seqStartO seqEndO).1
  let seqEnd : Int := (extractSeqBounds read sigStart sigEnd seqStartO seqEndO).2
  match pySlice read.seq_to_sig_map seqStart (seqEnd + 1) with
  | [] => .error "index 0 is out of bounds for axis 0 with size 0"
  | _ :: srest =>
    let cmap := ((sigStart :: srest).dropLast ++ [sigEnd]).map
      (fun x => int32 (x - sigStart))
    let beforeCtx := pySlice read.seq (max 0 (seqStart - (kmer.1 : Int))) seqStart
    let afterCtx := pySlice read.seq seqEnd (seqEnd + (kmer.2 : Int))
    if beforeCtx.length ≠ kmer.1 ∨ afterCtx.length ≠ kmer.2 then
      .error "Invalid context seq extracted"
    else .ok ⟨pySlice read.sig sigStart sigEnd,
      pySlice read.seq seqStart seqEnd, cmap, beforeCtx, afterCtx,
      sigFocusPos - sigStart, readSeqPos - seqStart, label, readId, readSeqPos⟩

/-- Modelled from the spec: the `util.Motif` class is not under `src/`
(only its callers are).  §4.1 of the spec describes it as an ordered
sequence of base-matching symbols (wildcards allowed) plus a focus
offset; each pattern position is modelled as the list of bases it
accepts. -/
structure Motif where
  pattern : List (List Base)
  focus_pos : Nat
deriving DecidableEq, Repr

/-- Modelled from the spec: `motif.num_bases_after_focus`, the number of
pattern positions after the focus. -/
def Motif.num_bases_after_focus (m : Motif) : Nat :=
  m.pattern.length - m.focus_pos - 1

/-- Does the motif pattern match the text starting at position `i`
(the whole pattern must fit)? -/
def motifMatchesAt (pat : List (List Base)) (s : List Base) (i : Nat) : Bool :=
  decide (pat.length ≤ (s.drop i).length) &&
    (pat.zip (s.drop i)).all (fun p => p.1.contains p.2)

/-- Modelled from the spec: `motif.pattern.finditer`, a left-to-right
non-overlapping scan for the pattern (matches advance past the matched
text, as in a standard regex scan).  Fueled recursion; the fuel is the
remaining scan length. -/
def motifFinditerGo (pat : List (List Base)) (s : List Base) :
    Nat → Nat → List Nat
  | _, 0 => []
  | i, fuel + 1 =>
    if i + pat.length ≤ s.length then
      if motifMatchesAt pat s i then
        i :: motifFinditerGo pat s (i + max pat.length 1) fuel
      else motifFinditerGo pat s (i + 1) fuel
    else []

/-- Modelled from the spec: all match start positions of the motif
pattern in `s`. -/
def motifFinditer (pat : List (List Base)) (s : List Base) : List Nat :=
  motifFinditerGo pat s 0 (s.length + 1)

/-- `sig_focus_pos` as computed in the `load_chunks` loop: midpoint of
the call-site base's signal span (Python `//` is floor division). -/
def sigFocusOf (read : RemoraRead) (m : Nat) : Int :=
  Int.fdiv (read.seq_to_sig_map.getD m 0 + read.seq_to_sig_map.getD (m + 1) 0) 2

/-- The per-read focus-position computation of `load_chunks`: motif
search in `full` mode, otherwise the single externally supplied focus
offset, validated against the motif; rejections are per-read histogram
entries. -/
def readPositions (motif : Motif) (focusOffset : Option Nat) (full : Bool)
    (read : RemoraRead) : Except String (List Nat) :=
  if full then
    .ok ((motifFinditer motif.pattern read.seq).map
      (fun st => st + motif.focus_pos))
  else match focusOffset with
  | none => .error "Either --focus-offset or --full need to be set."
  | some fo =>
    if read.seq.length ≤ fo then .error "[--focus-offset] past read seq"
    else
      let readMotif := pySlice read.seq ((fo : Int) - (motif.focus_pos : Int))
        ((fo : Int) + (motif.num_bases_after_focus : Int) + 1)
      if motifMatchesAt motif.pattern readMotif 0 then .ok [fo]
      else .error "Focus position motif mismatch"

/-- The body of the `load_chunks` inner loop after the window has been
validated: extract, optionally mask the focus base, and check. -/
def afterWindow (read : RemoraRead) (kmer : Nat × Nat)
    (sigStart sigEnd : Int) (lbl : Int) (seqStartO seqEndO : Option Int)
    (sfp : Int) (basePred : Bool) (m : Nat) : Except String Chunk :=
  Chunk.extract_chunk_from_read read kmer sigStart sigEnd lbl
      seqStartO seqEndO sfp read.read_id (m : Int) >>= fun c0 =>
    (if basePred then c0.mask_focus_base else .ok c0) >>= fun c1 =>
    c1.check >>= fun _ => .ok c1

/-- One iteration of the `for m_pos in motif_pos` loop of
`load_chunks`: window computation and validation for the configured
mode, label lookup, then `afterWindow`.  An `error` is a rejection
recorded in the histogram; an `ok` is an appended chunk. -/
def processPos (read : RemoraRead) (labelConv : List Int)
    (chunkContext : Int × Int) (kmer : Nat × Nat)
    (fixedSeqLenChunks basePred : Bool) (m : Nat) : Except String Chunk :=
  let sfp := sigFocusOf read m
  let lbl : Int := match read.int_seq with
    | none => -1
    | some iseq => labelConv.getD (iseq.getD m 0) 0
  if fixedSeqLenChunks then
    let seqStart : Int := (m : Int) - chunkContext.1
    let seqEnd : Int := (m : Int) + chunkContext.2 + 1
    if seqStart ≤ 0 then .error "Invalid base start"
    else if (read.seq_to_sig_map.length : Int) ≤ seqEnd then
      .error "Invalid base end"
    else
      let sigStart := read.seq_to_sig_map.getD seqStart.toNat 0
      let sigEnd := read.seq_to_sig_map.getD seqEnd.toNat 0
      afterWindow read kmer sigStart sigEnd lbl (some seqStart) (some seqEnd)
        sfp basePred m
  else
    let sigStart := sfp - chunkContext.1
    let sigEnd := sfp + chunkContext.2
    if sigStart < 0 then .error "Invalid signal start"
    else if (read.seq_to_sig_map.getLast?).getD 0 < sigEnd then
      .error "Invalid signal end"
    else if sigEnd ≤ sigStart then .error "Empty signal"
    else afterWindow read kmer sigStart sigEnd lbl none none sfp basePred m

/-- The `for m_pos in motif_pos` loop, threading the accumulated
(chunks, histogram) state.  A successful chunk appends `"success"` to
the histogram; if the chunk cap is reached the loop `break`s (note:
this exits only the per-read loop in the source). -/
def goPositions (read : RemoraRead) (labelConv : List Int)
    (chunkContext : Int × Int) (kmer : Nat × Nat)
    (fixedSeqLenChunks basePred : Bool) (numChunks : Option Int) :
    List Nat → List Chunk × List String → List Chunk × List String
  | [], acc => acc
  | m :: rest, acc =>
    match processPos read labelConv chunkContext kmer fixedSeqLenChunks
        basePred m with
    | .error e =>
      goPositions read labelConv chunkContext kmer fixedSeqLenChunks basePred
        numChunks rest (acc.1, acc.2 ++ [e])
    | .ok c =>
      let acc2 := (acc.1 ++ [c], acc.2 ++ ["success"])
      match numChunks with
      | some n =>
        if n ≤ (acc2.1.length : Int) then acc2
        else goPositions read labelConv chunkContext kmer fixedSeqLenChunks
          basePred numChunks rest acc2
      | none =>
        goPositions read labelConv chunkContext kmer fixedSeqLenChunks
          basePred numChunks rest acc2

/-- The `for read in reads` loop of `load_chunks`. -/
def goReads (motif : Motif) (focusOffset : Option Nat) (full : Bool)
    (labelConv : List Int) (chunkContext : Int × Int) (kmer : Nat × Nat)
    (fixedSeqLenChunks basePred : Bool) (numChunks : Option Int) :
    List RemoraRead → List Chunk × List String → List Chunk × List String
  | [], acc => acc
  | r :: rs, acc =>
    let acc2 := match readPositions motif focusOffset full r with
      | .error e => (acc.1, acc.2 ++ [e])
      | .ok pos =>
        goPositions r labelConv chunkContext kmer fixedSeqLenChunks basePred
          numChunks pos acc
    goReads motif focusOffset full labelConv chunkContext kmer
      fixedSeqLenChunks basePred numChunks rs acc2

/-- `load_chunks`.  Returns the extracted chunks together with the
rejection histogram (modelled as the list of recorded reason strings;
the Python code logs the aggregated counts).  The only fatal conditions
are the argument check and the terminal "No valid chunks extracted". -/
def load_chunks (reads : List RemoraRead) (numChunks : Option Int)
    (motif : Motif) (labelConv : List Int) (chunkContext : Int × Int)
    (kmer : Nat × Nat) (focusOffset : Option Nat)
    (fixedSeqLenChunks basePred full : Bool) :
    Except String (List Chunk × List String) :=
  if focusOffset = none ∧ full = false then
    .error "Either --focus-offset or --full need to be set."
  else
    let res := goReads motif focusOffset full labelConv chunkContext kmer
      fixedSeqLenChunks basePred numChunks reads ([], [])
    if res.1.length = 0 then .error "No valid chunks extracted"
    else .ok res

/-- `RemoraDataset`: batched parallel buffers pre-computed from a list
of chunks.  Tensors are modelled as lists of rows; `read_data` is the
optional metadata list. -/
structure RemoraDataset where
  batch_size : Nat
  shuffle : Bool
  drop_last : Bool
  return_read_data : Bool
  dataset_len : Nat
  n_batches : Nat
  sig_tensor : List (List Int)
  seq_tensor : List (List (List Bool))
  labels : List Int
  read_data : Option (List (String × Int))
deriving DecidableEq, Repr

/-- `divmod`-based batch count of `RemoraDataset.__init__`. -/
def remoraNBatches (n bs : Nat) (dropLast : Bool) : Nat :=
  n / bs + (if dropLast = false ∧ 0 < n % bs then 1 else 0)

/-- The shape of a stacked `seq_nn_input` tensor (column count and
per-column heights); `np.stack` requires all shapes to agree. -/
def tensorShape (t : List (List Bool)) : Nat × List Nat :=
  (t.length, t.map (fun col => col.length))

/-- Sequencing of per-chunk encodings: the first raised error
propagates (as in the Python list comprehension inside `np.stack`). -/
def mapExcept (f : α → Except ε β) : List α → Except ε (List β)
  | [] => .ok []
  | x :: xs => f x >>= fun y => mapExcept f xs >>= fun ys => .ok (y :: ys)

/-- `RemoraDataset.__init__`: materialize the parallel buffers.
`divmod` by a zero batch size and `np.stack` of an empty or ragged
list of per-chunk arrays raise. -/
def mkRemoraDataset (chunks : List Chunk) (batchSize : Nat)
    (shuffle dropLast returnReadData : Bool) : Except String RemoraDataset :=
  if batchSize = 0 then .error "integer division or modulo by zero"
  else match mapExcept Chunk.seq_nn_input chunks with
  | .error e => .error e
  | .ok seqT =>
    if chunks.length = 0 then .error "need at least one array to stack"
    else if (chunks.map (fun c => c.signal.length)).all
        (fun n => n = ((chunks.map (fun c => c.signal.length)).headD 0)) = false then
      .error "all input arrays must have the same shape"
    else if (seqT.map tensorShape).all
        (fun s => s = ((seqT.map tensorShape).headD (0, []))) = false then
      .error "all input arrays must have the same shape"
    else .ok ⟨batchSize, shuffle, dropLast, returnReadData, chunks.length,
      remoraNBatches chunks.length batchSize dropLast,
      chunks.map (fun c => c.signal), seqT, chunks.map (fun c => c.label),
      if returnReadData then
        some (chunks.map (fun c => (c.read_id, c.read_seq_pos)))
      else none⟩

/-- Indexing a buffer by a permutation index tensor
(`self.sig_tensor[shuf_idx]`). -/
def permuteList (perm : List Nat) (l : List α) : List α :=
  perm.filterMap (fun i => l.get? i)

/-- `RemoraDataset.__iter__`: if `shuffle` is set, one common random
permutation (`torch.randperm`, here an explicit argument) is applied to
all buffers and, when present, the metadata list. -/
def iterStart (d : RemoraDataset) (perm : List Nat) : RemoraDataset :=
  if d.shuffle then
    { d with
      sig_tensor := permuteList perm d.sig_tensor,
      seq_tensor := permuteList perm d.seq_tensor,
      labels := permuteList perm d.labels,
      read_data := if d.return_read_data then d.read_data.map (permuteList perm)
        else d.read_data }
  else d

/-- The batch produced by the `i`-th call to `RemoraDataset.__next__`:
contiguous slices `[i*batch_size, (i+1)*batch_size)` of all buffers. -/
def batchAt (d : RemoraDataset) (i : Nat) :
    List (List Int) × List (List (List Bool)) × List Int ×
      Option (List (String × Int)) :=
  ((d.sig_tensor.drop (i * d.batch_size)).take d.batch_size,
   (d.seq_tensor.drop (i * d.batch_size)).take d.batch_size,
   (d.labels.drop (i * d.batch_size)).take d.batch_size,
   d.read_data.map (fun md => (md.drop (i * d.batch_size)).take d.batch_size))

/-- All batches of one full iteration pass (`__next__` until
`StopIteration`, i.e. `n_batches` batches). -/
def allBatches (d : RemoraDataset) :
    List (List (List Int) × List (List (List Bool)) × List Int ×
      Option (List (String × Int))) :=
  (List.range d.n_batches).map (fun i => batchAt d i)

/-- Rows of four parallel buffers zipped together. -/
def zip4 (a : List α) (b : List β) (c : List γ) (d : List δ) :
    List (α × β × γ × δ) :=
  a.zip (b.zip (c.zip d))

/-- The (signal, feature, label, metadata) rows of a dataset. -/
def datasetRows (d : RemoraDataset) :
    List (List Int × List (List Bool) × Int × (String × Int)) :=
  zip4 d.sig_tensor d.seq_tensor d.labels (d.read_data.getD [])

/-- The rows of one batch. -/
def batchRows (b : List (List Int) × List (List (List Bool)) × List Int ×
    Option (List (String × Int))) :
    List (List Int × List (List Bool) × Int × (String × Int)) :=
  zip4 b.1 b.2.1 b.2.2.1 (b.2.2.2.getD [])

/-- Structural well-formedness of a dataset: positive batch size,
parallel buffers of the common length, and the `divmod` batch count.
`RemoraDataset.__init__` establishes all of it. -/
def RemoraDataset.wf (d : RemoraDataset) : Prop :=
  0 < d.batch_size ∧ d.sig_tensor.length = d.dataset_len ∧
    d.seq_tensor.length = d.dataset_len ∧ d.labels.length = d.dataset_len ∧
    (∀ md, d.read_data = some md → md.length = d.dataset_len) ∧
    d.n_batches = remoraNBatches d.dataset_len d.batch_size d.drop_last

/-- The validation/train-as-validation/train dataset construction of
`load_datasets` for a positive validation proportion, applied to the
already shuffled chunk list and the partition index. -/
def mkSplit (shuffled : List Chunk) (valIdx : Nat) (batchSize : Nat)
    (returnReadData : Bool) : Except String (RemoraDataset ×
      Option RemoraDataset × Option RemoraDataset × List Chunk) :=
  match mkRemoraDataset (shuffled.take valIdx) batchSize false false
      returnReadData with
  | .error e => .error e
  | .ok dlVal =>
    match mkRemoraDataset ((shuffled.drop valIdx).take valIdx) batchSize
        false false returnReadData with
    | .error e => .error e
    | .ok dlValTrn =>
      match mkRemoraDataset (shuffled.drop valIdx) batchSize true true
          returnReadData with
      | .error e => .error e
      | .ok dlTrn => .ok (dlTrn, some dlVal, some dlValTrn, shuffled)

/-- `load_datasets`.  `np.random.shuffle` is modelled by the explicit
`shuf` argument; `val_prop` is an exact rational; `int()` of the
positive quantities `1/val_prop` and `len(chunks)*val_prop` is the
floor `⌊ ⌋`.  The "Too few chunks" message drops the interpolated
counts of the Python f-string. -/
def load_datasets (shuf : List Chunk → List Chunk) (reads : List RemoraRead)
    (chunkContext : Int × Int) (batchSize : Nat) (numChunks : Option Int)
    (fixedSeqLenChunks : Bool) (focusOffset : Option Nat) (full : Bool)
    (labelConv : List Int) (motif : Motif) (basePred : Bool) (valProp : ℚ)
    (kmer : Nat × Nat) (returnReadData : Bool) :
    Except String (RemoraDataset × Option RemoraDataset ×
      Option RemoraDataset × List Chunk) :=
  match load_chunks reads numChunks motif labelConv chunkContext kmer
      focusOffset fixedSeqLenChunks basePred full with
  | .error e => .error e
  | .ok (chunks, _) =>
    if valProp ≤ 0 then
      match mkRemoraDataset chunks batchSize false false returnReadData with
      | .error e => .error e
      | .ok dlTrn => .ok (dlTrn, none, none, chunks)
    else
      if (chunks.length : Int) < ⌊1 / valProp⌋ * 2 then
        .error "Too few chunks to extract validation proportion"
      else
        mkSplit (shuf chunks)
          (⌊(chunks.length : ℚ) * valProp⌋).toNat batchSize
          returnReadData

/-- The end-to-end example read of the spec: `seq = "ACGTACGTAC"`,
uniform 10-samples-per-base alignment map, signal of length 100. -/
def exSeq : List Base :=
  [Base.A, Base.C, Base.G, Base.T, Base.A, Base.C, Base.G, Base.T, Base.A,
   Base.C]

/-- `seq_to_sig_map = [0,10,20,...,100]`. -/
def exMap : List Int := [0, 10, 20, 30, 40, 50, 60, 70, 80, 90, 100]

/-- A length-100 signal trace (sample values are irrelevant). -/
def exSig : List Int := (List.range 100).map (fun n => (n : Int))

/-- The example read. -/
def exRead : RemoraRead := ⟨exSig, exSeq, exMap, "r", none⟩

/-- Motif `"CG"` with `focus_pos = 0`. -/
def cgMotif : Motif := ⟨[[Base.C], [Base.G]], 0⟩

/-- Claim C2: on the example read, full-mode extraction with motif
`"CG"` (focus 0), `chunk_context = (5,5)` in signal coordinates and
`kmer_context_bases = (1,1)` finds focus positions 1 and 5, computes
`sig_focus_pos` 15 and 55, and returns exactly two chunks, each with
10 signal samples and flanking context strings of length 1. -/
theorem load_chunks_example_two_chunks :
    readPositions cgMotif none true exRead = .ok [1, 5] ∧
    sigFocusOf exRead 1 = 15 ∧ sigFocusOf exRead 5 = 55 ∧
    (load_chunks [exRead] none cgMotif [] (5, 5) (1, 1) none false false
        true).map
      (fun p => p.1.map (fun c =>
        (c.read_seq_pos, c.signal.length, c.before_context_seq.length,
          c.after_context_seq.length))) =
      .ok [(1, 10, 1, 1), (5, 10, 1, 1)] := by
  refine ⟨rfl, rfl, rfl, rfl⟩

/-- Claim C1 (failing input): with two reads that each yield a valid
chunk and a chunk cap of 1, `load_chunks` returns 2 chunks: the
`break` on reaching the cap only exits the per-read loop, so the cap
is exceeded across reads, contradicting the documented "Total maximum
number of chunks to return". -/
theorem load_chunks_cap_exceeded :
    (load_chunks [exRead, exRead] (some 1) cgMotif [] (5, 5) (1, 1) none
        false false true).map (fun p => p.1.length) = .ok 2 := rfl

deriving instance DecidableEq for Except

/-- Exact successive differences, used in the proofs below. -/
def intDiffs (l : List Int) : List Int :=
  l.zipWith (fun a b => b - a) l.tail

/-- `np.diff` on an int32 array: successive differences with int32
wraparound. -/
def int32Diffs (l : List Int) : List Int :=
  l.zipWith (fun a b => int32 (b - a)) l.tail

theorem base_sig_lens_eq (c : Chunk) : c.base_sig_lens = int32Diffs c.seq_to_sig_map := rfl

theorem int32_eq_self {x : Int} (h1 : -2 ^ 31 ≤ x) (h2 : x < 2 ^ 31) :
    int32 x = x := by
  unfold int32; omega

theorem int32_range (x : Int) : -2 ^ 31 ≤ int32 x ∧ int32 x < 2 ^ 31 := by
  unfold int32; omega

theorem int32_emod (x : Int) : int32 x % 2 ^ 32 = x % 2 ^ 32 := by
  unfold int32; omega

theorem int32Diffs_length (l : List Int) : (int32Diffs l).length = l.length - 1 := by
  simp [int32Diffs, List.length_zipWith, List.length_tail]

theorem int32Diffs_eq_intDiffs {l : List Int}
    (h : ∀ x ∈ l, 0 ≤ x ∧ x < 2 ^ 31) : int32Diffs l = intDiffs l := by
  match l with
  | [] => rfl
  | [a] => rfl
  | a :: b :: t =>
    have ih := int32Diffs_eq_intDiffs (l := b :: t)
      (fun x hx => h x (List.mem_cons_of_mem a hx))
    simp only [int32Diffs, intDiffs, List.tail_cons,
      List.zipWith_cons_cons] at ih ⊢
    have ha := h a (List.mem_cons_self a (b :: t))
    have hb := h b (List.mem_cons_of_mem a (List.mem_cons_self b t))
    rw [int32_eq_self (by omega) (by omega)]
    exact congrArg _ ih

theorem sum_int32Diffs_emod (l : List Int) :
    (int32Diffs l).sum % 2 ^ 32 = (intDiffs l).sum % 2 ^ 32 := by
  match l with
  | [] => rfl
  | [a] => rfl
  | a :: b :: t =>
    have ih := sum_int32Diffs_emod (b :: t)
    simp only [int32Diffs, intDiffs, List.tail_cons,
      List.zipWith_cons_cons, List.sum_cons] at ih ⊢
    have hm := int32_emod (b - a)
    omega

theorem nonneg_of_head_chain {l : List Int} (hh : l.head? = some 0)
    (hc : l.Chain' (fun a b => a ≤ b)) : ∀ x ∈ l, 0 ≤ x := by
  cases l with
  | nil => simp at hh
  | cons a t =>
    have ha : a = 0 := by simpa using hh
    subst ha
    rw [List.chain'_iff_pairwise] at hc
    intro x hx
    rcases List.mem_cons.1 hx with h | h
    · omega
    · exact (List.pairwise_cons.1 hc).1 x h

theorem intDiffs_length (l : List Int) : (intDiffs l).length = l.length - 1 := by
  simp [intDiffs, List.length_zipWith, List.length_tail]

theorem intDiffs_sum (l : List Int) (h : l ≠ []) :
    (intDiffs l).sum = l.getLast?.getD 0 - l.head?.getD 0 := by
  match l with
  | [a] => simp [intDiffs]
  | a :: b :: t =>
    have ih := intDiffs_sum (b :: t) (by simp)
    simp only [intDiffs, List.tail_cons, List.zipWith_cons_cons] at ih ⊢
    rw [List.sum_cons, ih]
    simp [List.getLast?_cons_cons]

theorem sum_toNat_of_nonneg (l : List Int) (h : ∀ x ∈ l, 0 ≤ x) :
    ((l.map Int.toNat).sum : Int) = l.sum := by
  induction l with
  | nil => simp
  | cons a t ih =>
    simp only [List.map_cons, List.sum_cons, Nat.cast_add]
    rw [ih (fun x hx => h x (List.mem_cons_of_mem a hx))]
    have := h a (List.mem_cons_self a t)
    omega

theorem flatten_replicate_length (cols : List (List Bool)) (reps : List Int)
    (h : reps.length = cols.length) :
    (((cols.zip reps).map (fun p => List.replicate p.2.toNat p.1)).flatten).length =
      (reps.map Int.toNat).sum := by
  induction cols generalizing reps with
  | nil => cases reps with
    | nil => simp
    | cons r rs => simp at h
  | cons c cs ih =>
    cases reps with
    | nil => simp at h
    | cons r rs =>
      simp only [List.zip_cons_cons, List.map_cons, List.flatten_cons,
        List.length_append, List.length_replicate, List.sum_cons]
      rw [ih rs (by simpa using h)]

theorem flatten_replicate_mem (cols : List (List Bool)) (reps : List Int)
    (col : List Bool)
    (h : col ∈ ((cols.zip reps).map (fun p => List.replicate p.2.toNat p.1)).flatten) :
    col ∈ cols := by
  rw [List.mem_flatten] at h
  obtain ⟨l, hl, hcol⟩ := h
  rw [List.mem_map] at hl
  obtain ⟨p, hp, rfl⟩ := hl
  have := List.eq_of_mem_replicate hcol
  subst this
  exact (List.of_mem_zip hp).1

/-- The chunk-validity invariant of spec §8, properties 1-2, relative
to the configured context lengths, adjusted for the int32 cast of the
chunk map (`.astype(np.int32)`): the final map entry is only congruent
to `len(signal)` modulo `2^32`, with equality whenever the chunk's
signal is shorter than `2^31` samples. -/
def chunkInv (kb ka : Nat) (c : Chunk) : Prop :=
  c.seq_to_sig_map.head? = some 0 ∧
    c.sequence.length + 1 = c.seq_to_sig_map.length ∧
    c.before_context_seq.length = kb ∧ c.after_context_seq.length = ka ∧
    (∀ x ∈ c.seq_to_sig_map, -2 ^ 31 ≤ x ∧ x < 2 ^ 31) ∧
    c.seq_to_sig_map.getLast?.getD 0 % 2 ^ 32 =
      (c.signal.length : Int) % 2 ^ 32 ∧
    ((c.signal.length : Int) < 2 ^ 31 →
      c.seq_to_sig_map.getLast? = some (c.signal.length : Int))

theorem extract_ok_ctx_len {read : RemoraRead} {kmer : Nat × Nat}
    {ss se lbl : Int} {sO eO : Option Int} {sfp : Int} {rid : String}
    {rsp : Int} {c : Chunk}
    (h : Chunk.extract_chunk_from_read read kmer ss se lbl sO eO sfp rid rsp
      = .ok c) :
    c.before_context_seq.length = kmer.1 ∧
      c.after_context_seq.length = kmer.2 := by
  simp only [Chunk.extract_chunk_from_read] at h
  split at h
  · exact absurd h (by simp)
  · split at h
    · exact absurd h (by simp)
    · rename_i hctx
      push_neg at hctx
      cases h
      exact hctx

theorem extract_ok_map_shape {read : RemoraRead} {kmer : Nat × Nat}
    {ss se lbl : Int} {sO eO : Option Int} {sfp : Int} {rid : String}
    {rsp : Int} {c : Chunk}
    (h : Chunk.extract_chunk_from_read read kmer ss se lbl sO eO sfp rid rsp
      = .ok c) :
    ∃ srest : List Int,
      c.seq_to_sig_map =
        ((ss :: srest).dropLast ++ [se]).map (fun x => int32 (x - ss)) := by
  simp only [Chunk.extract_chunk_from_read] at h
  split at h
  · exact absurd h (by simp)
  · rename_i s0 srest _
    split at h
    · exact absurd h (by simp)
    · cases h
      exact ⟨srest, rfl⟩

theorem extract_ok_map_head {read : RemoraRead} {kmer : Nat × Nat}
    {ss se lbl : Int} {sO eO : Option Int} {sfp : Int} {rid : String}
    {rsp : Int} {c : Chunk}
    (h : Chunk.extract_chunk_from_read read kmer ss se lbl sO eO sfp rid rsp
      = .ok c)
    (h2 : 2 ≤ c.seq_to_sig_map.length) :
    c.seq_to_sig_map.head? = some 0 := by
  obtain ⟨srest, hmap⟩ := extract_ok_map_shape h
  cases srest with
  | nil => rw [hmap] at h2; simp at h2
  | cons b bs =>
    rw [hmap]
    simp only [List.dropLast_cons₂, List.cons_append, List.map_cons,
      List.head?_cons, sub_self]
    rw [int32_eq_self (by omega) (by omega)]

theorem extract_ok_map_range {read : RemoraRead} {kmer : Nat × Nat}
    {ss se lbl : Int} {sO eO : Option Int} {sfp : Int} {rid : String}
    {rsp : Int} {c : Chunk}
    (h : Chunk.extract_chunk_from_read read kmer ss se lbl sO eO sfp rid rsp
      = .ok c) :
    ∀ x ∈ c.seq_to_sig_map, -2 ^ 31 ≤ x ∧ x < 2 ^ 31 := by
  obtain ⟨srest, hmap⟩ := extract_ok_map_shape h
  rw [hmap]
  intro x hx
  obtain ⟨y, -, rfl⟩ := List.mem_map.1 hx
  exact int32_range _

theorem mask_ok_fields {c c' : Chunk} (h : c.mask_focus_base = .ok c') :
    c'.signal = c.signal ∧ c'.seq_to_sig_map = c.seq_to_sig_map ∧
      c'.before_context_seq = c.before_context_seq ∧
      c'.after_context_seq = c.after_context_seq := by
  unfold Chunk.mask_focus_base at h
  split at h
  · exact absurd h (by simp)
  · split at h
    · cases h; exact ⟨rfl, rfl, rfl, rfl⟩
    · cases h; exact ⟨rfl, rfl, rfl, rfl⟩

theorem check_ok_facts {c : Chunk} (h : c.check = .ok ()) :
    c.signal.length ≠ 0 ∧
      ∃ t, c.seq_nn_input = .ok t ∧ t.length = c.signal.length ∧
        (c.sequence.length : Int) = (c.seq_to_sig_map.length : Int) - 1 := by
  unfold Chunk.check at h
  split at h
  · exact absurd h (by simp)
  · rename_i hsig
    split at h
    · exact absurd h (by simp)
    · rename_i t heq
      split at h
      · exact absurd h (by simp)
      · rename_i hlen
        split at h
        · exact absurd h (by simp)
        · rename_i hmap
          push_neg at hlen hmap
          exact ⟨hsig, t, heq, hlen, hmap⟩

theorem enc_kmers_ok_facts {c : Chunk} {ek : List (List Bool)}
    (h : c.enc_kmers = .ok ek) :
    ek.length = c.sequence.length ∧ c.sequence.length ≠ 0 := by
  simp only [Chunk.enc_kmers] at h
  split at h
  · exact absurd h (by simp)
  · rename_i hne
    split at h
    · cases h; simp [hne]
    · exact absurd h (by simp)

theorem seq_nn_ok_nonneg {c : Chunk} {t : List (List Bool)}
    (h : c.seq_nn_input = .ok t) :
    ∀ r ∈ c.base_sig_lens, 0 ≤ r := by
  unfold Chunk.seq_nn_input at h
  cases henc : c.enc_kmers with
  | error e => rw [henc] at h; exact absurd h (by simp [Bind.bind, Except.bind])
  | ok ek =>
    rw [henc] at h
    simp only [Bind.bind, Except.bind] at h
    unfold npRepeatCols at h
    split at h
    · exact absurd h (by simp)
    · rename_i hnn
      intro r hr
      by_contra hlt
      exact absurd (List.any_eq_true.mpr ⟨r, hr, by simpa using not_le.mp hlt⟩) hnn

theorem seq_nn_ok_width {c : Chunk} {t : List (List Bool)}
    (h : c.seq_nn_input = .ok t)
    (hlen : c.base_sig_lens.length = c.sequence.length) :
    t.length = (c.base_sig_lens.map Int.toNat).sum ∧
      c.sequence.length ≠ 0 := by
  unfold Chunk.seq_nn_input at h
  cases henc : c.enc_kmers with
  | error e => rw [henc] at h; exact absurd h (by simp [Bind.bind, Except.bind])
  | ok ek =>
    obtain ⟨hek, hne⟩ := enc_kmers_ok_facts henc
    rw [henc] at h
    simp only [Bind.bind, Except.bind] at h
    unfold npRepeatCols at h
    split at h
    · exact absurd h (by simp)
    · split at h
      · cases h
        exact ⟨flatten_replicate_length ek c.base_sig_lens (by omega), hne⟩
      · rename_i hne2
        exact absurd (by omega : c.base_sig_lens.length = ek.length) hne2

theorem check_ok_inv {c : Chunk} (hchk : c.check = .ok ())
    (hhead : 2 ≤ c.seq_to_sig_map.length → c.seq_to_sig_map.head? = some 0) :
    c.seq_to_sig_map.head? = some 0 ∧
      c.seq_to_sig_map.getLast?.getD 0 % 2 ^ 32 =
        (c.signal.length : Int) % 2 ^ 32 ∧
      c.sequence.length + 1 = c.seq_to_sig_map.length := by
  obtain ⟨-, t, hnn, hwidth, hrel⟩ := check_ok_facts hchk
  have hdl : c.base_sig_lens.length = c.sequence.length := by
    rw [base_sig_lens_eq, int32Diffs_length]; omega
  obtain ⟨hsum, hne⟩ := seq_nn_ok_width hnn hdl
  have hlen2 : 2 ≤ c.seq_to_sig_map.length := by omega
  have hd := hhead hlen2
  have hsum2 : ((c.base_sig_lens.map Int.toNat).sum : Int) = c.base_sig_lens.sum :=
    sum_toNat_of_nonneg _ (seq_nn_ok_nonneg hnn)
  have hmapne : c.seq_to_sig_map ≠ [] := by
    intro hnil; rw [hnil] at hlen2; simp at hlen2
  have htel : (intDiffs c.seq_to_sig_map).sum =
      c.seq_to_sig_map.getLast?.getD 0 - c.seq_to_sig_map.head?.getD 0 :=
    intDiffs_sum _ hmapne
  have hmod := sum_int32Diffs_emod c.seq_to_sig_map
  have hbe : c.base_sig_lens.sum = (int32Diffs c.seq_to_sig_map).sum := by
    rw [base_sig_lens_eq]
  have hd0 : c.seq_to_sig_map.head?.getD 0 = 0 := by rw [hd]; rfl
  refine ⟨hd, ?_, by omega⟩
  omega

theorem except_bind_ok {ε α β : Type} {x : Except ε α} {f : α → Except ε β}
    {b : β} (h : (x >>= f) = .ok b) : ∃ a, x = .ok a ∧ f a = .ok b := by
  cases x with
  | error e => simp [Bind.bind, Except.bind] at h
  | ok a => exact ⟨a, rfl, by simpa [Bind.bind, Except.bind] using h⟩

theorem afterWindow_ok_inv {read : RemoraRead} {kmer : Nat × Nat}
    {ss se lbl : Int} {sO eO : Option Int} {sfp : Int} {bp : Bool} {m : Nat}
    {c : Chunk} (h : afterWindow read kmer ss se lbl sO eO sfp bp m = .ok c) :
    chunkInv kmer.1 kmer.2 c := by
  unfold afterWindow at h
  obtain ⟨c0, hext, h⟩ := except_bind_ok h
  obtain ⟨c1, hmask, h⟩ := except_bind_ok h
  obtain ⟨u, hchk, h⟩ := except_bind_ok h
  cases u
  have hc : c1 = c := by simpa using h
  subst hc
  have hfields : c1.signal = c0.signal ∧
      c1.seq_to_sig_map = c0.seq_to_sig_map ∧
      c1.before_context_seq = c0.before_context_seq ∧
      c1.after_context_seq = c0.after_context_seq := by
    cases bp with
    | false =>
      simp only [Bool.false_eq_true, if_neg] at hmask
      cases hmask
      exact ⟨rfl, rfl, rfl, rfl⟩
    | true =>
      simp only [if_pos] at hmask
      exact mask_ok_fields hmask
  obtain ⟨hsig, hmap, hbef, haft⟩ := hfields
  obtain ⟨hb, ha⟩ := extract_ok_ctx_len hext
  have hhead : 2 ≤ c1.seq_to_sig_map.length →
      c1.seq_to_sig_map.head? = some 0 := by
    intro h2
    rw [hmap] at h2 ⊢
    exact extract_ok_map_head hext h2
  obtain ⟨h1, h2, h3⟩ := check_ok_inv hchk hhead
  have hrange : ∀ x ∈ c1.seq_to_sig_map, -2 ^ 31 ≤ x ∧ x < 2 ^ 31 := by
    rw [hmap]; exact extract_ok_map_range hext
  have hmapne : c1.seq_to_sig_map ≠ [] := by
    intro hnil; rw [hnil] at h3; simp at h3
  have heq : (c1.signal.length : Int) < 2 ^ 31 →
      c1.seq_to_sig_map.getLast? = some (c1.signal.length : Int) := by
    intro hlt
    obtain ⟨x, hx⟩ := Option.isSome_iff_exists.mp
      (List.getLast?_isSome.mpr hmapne)
    have hxr := hrange x (List.mem_of_getLast?_eq_some hx)
    rw [hx] at h2 ⊢
    simp only [Option.getD_some] at h2
    have : x = (c1.signal.length : Int) := by omega
    rw [this]
  exact ⟨h1, h3, by rw [hbef, hb], by rw [haft, ha], hrange, h2, heq⟩

theorem processPos_ok_inv {read : RemoraRead} {labelConv : List Int}
    {cc : Int × Int} {kmer : Nat × Nat} {fsl bp : Bool} {m : Nat} {c : Chunk}
    (h : processPos read labelConv cc kmer fsl bp m = .ok c) :
    chunkInv kmer.1 kmer.2 c := by
  simp only [processPos] at h
  split at h
  · split at h
    · exact absurd h (by simp)
    · split at h
      · exact absurd h (by simp)
      · exact afterWindow_ok_inv h
  · split at h
    · exact absurd h (by simp)
    · split at h
      · exact absurd h (by simp)
      · split at h
        · exact absurd h (by simp)
        · exact afterWindow_ok_inv h

theorem goPositions_inv {read : RemoraRead} {labelConv : List Int}
    {cc : Int × Int} {kmer : Nat × Nat} {fsl bp : Bool}
    {numChunks : Option Int} (pos : List Nat)
    (acc : List Chunk × List String)
    (hacc : ∀ c ∈ acc.1, chunkInv kmer.1 kmer.2 c) :
    ∀ c ∈ (goPositions read labelConv cc kmer fsl bp numChunks pos acc).1,
      chunkInv kmer.1 kmer.2 c := by
  induction pos generalizing acc with
  | nil => exact hacc
  | cons m rest ih =>
    simp only [goPositions]
    split
    · exact ih _ hacc
    · rename_i c hc
      have hacc2 : ∀ c' ∈ acc.1 ++ [c], chunkInv kmer.1 kmer.2 c' := by
        intro c' hc'
        rcases List.mem_append.mp hc' with h' | h'
        · exact hacc c' h'
        · rw [List.mem_singleton.mp h']
          exact processPos_ok_inv hc
      split
      · split
        · exact hacc2
        · exact ih _ hacc2
      · exact ih _ hacc2

theorem goReads_inv {motif : Motif} {fo : Option Nat} {full : Bool}
    {labelConv : List Int} {cc : Int × Int} {kmer : Nat × Nat}
    {fsl bp : Bool} {numChunks : Option Int} (reads : List RemoraRead)
    (acc : List Chunk × List String)
    (hacc : ∀ c ∈ acc.1, chunkInv kmer.1 kmer.2 c) :
    ∀ c ∈ (goReads motif fo full labelConv cc kmer fsl bp numChunks reads
      acc).1, chunkInv kmer.1 kmer.2 c := by
  induction reads generalizing acc with
  | nil => exact hacc
  | cons r rs ih =>
    simp only [goReads]
    apply ih
    split
    · exact hacc
    · exact goPositions_inv _ _ hacc

/-- Claim C3 (amended theorem): every chunk returned by `load_chunks`
satisfies the chunk-validity invariant adjusted for the int32 cast of
the re-anchored map (`.astype(np.int32)`, `data_chunks.py:172`): the
map starts at 0, `len(sequence) = len(seq_to_sig_map) - 1`, the
flanking context strings have exactly the configured lengths, every
map entry lies in the int32 range, and the final map entry is
congruent to the chunk's signal length modulo `2^32` — with equality
whenever the chunk's signal is shorter than `2^31` samples.
Candidates violating any checked conjunct are rejected (they never
appear in the returned list), not truncated. -/
theorem load_chunks_mem_inv32 {reads : List RemoraRead}
    {numChunks : Option Int} {motif : Motif} {labelConv : List Int}
    {cc : Int × Int} {kmer : Nat × Nat} {fo : Option Nat}
    {fsl bp full : Bool} {chunks : List Chunk} {hist : List String}
    (h : load_chunks reads numChunks motif labelConv cc kmer fo fsl bp full
      = .ok (chunks, hist)) :
    ∀ c ∈ chunks,
      c.seq_to_sig_map.head? = some 0 ∧
      c.sequence.length + 1 = c.seq_to_sig_map.length ∧
      c.before_context_seq.length = kmer.1 ∧
      c.after_context_seq.length = kmer.2 ∧
      (∀ x ∈ c.seq_to_sig_map, -2 ^ 31 ≤ x ∧ x < 2 ^ 31) ∧
      c.seq_to_sig_map.getLast?.getD 0 % 2 ^ 32 =
        (c.signal.length : Int) % 2 ^ 32 ∧
      ((c.signal.length : Int) < 2 ^ 31 →
        c.seq_to_sig_map.getLast? = some (c.signal.length : Int)) := by
  simp only [load_chunks] at h
  split at h
  · exact absurd h (by simp)
  · split at h
    · exact absurd h (by simp)
    · have hres : goReads motif fo full labelConv cc kmer fsl bp numChunks
          reads ([], []) = (chunks, hist) := Except.ok.inj h
      have hfst : (goReads motif fo full labelConv cc kmer fsl bp numChunks
          reads ([], [])).1 = chunks := by rw [hres]
      rw [← hfst]
      exact goReads_inv reads ([], []) (by simp)

/-- The concrete (chunks, histogram) produced on the example read. -/
def exChunksPair : List Chunk × List String :=
  ((load_chunks [exRead] none cgMotif [] (5, 5) (1, 1) none false false
    true).toOption).getD ([], [])

/-- The first chunk extracted from the example read. -/
def exChunk0 : Chunk := exChunksPair.1.headD ⟨[], [], [], [], [], 0, 0, 0, "", 0⟩

/-- Witness for C3: the amended invariant instantiated on a concrete
chunk of a concrete `load_chunks` run. -/
theorem load_chunks_mem_inv32_witness :
    exChunk0 ∈ exChunksPair.1 ∧
      (exChunk0.seq_to_sig_map.head? = some 0 ∧
        exChunk0.sequence.length + 1 = exChunk0.seq_to_sig_map.length ∧
        exChunk0.before_context_seq.length = 1 ∧
        exChunk0.after_context_seq.length = 1 ∧
        (∀ x ∈ exChunk0.seq_to_sig_map, -2 ^ 31 ≤ x ∧ x < 2 ^ 31) ∧
        exChunk0.seq_to_sig_map.getLast?.getD 0 % 2 ^ 32 =
          (exChunk0.signal.length : Int) % 2 ^ 32 ∧
        ((exChunk0.signal.length : Int) < 2 ^ 31 →
          exChunk0.seq_to_sig_map.getLast? =
            some (exChunk0.signal.length : Int))) :=
  ⟨by decide,
    @load_chunks_mem_inv32 [exRead] none cgMotif [] (5, 5) (1, 1) none false
      false true exChunksPair.1 exChunksPair.2 rfl exChunk0 (by decide)⟩

theorem pySlice_length {α : Type} (l : List α) (i j : Int) (h0 : 0 ≤ i)
    (hij : i ≤ j) (hj : j ≤ (l.length : Int)) :
    ((pySlice l i j).length : Int) = j - i := by
  simp only [pySlice]
  rw [if_neg (by omega), if_neg (by omega)]
  simp only [List.length_drop, List.length_take]
  omega

theorem except_bind_ok_intro {ε α β : Type} {x : Except ε α}
    {f : α → Except ε β} {a : α} {b : β} (hx : x = .ok a)
    (hf : f a = .ok b) : (x >>= f) = .ok b := by
  rw [hx]
  simpa [Bind.bind, Except.bind] using hf

/-- A `2^32`-sample signal: one chunk window of this read spans more
than `2^31` samples, so the int32 cast of the re-anchored map wraps. -/
def bigSig : List Int := List.replicate 4294967296 0

/-- A data-model-conforming read over that signal: strictly increasing
map with first entry 0 and last entry `len(sig)`, one more map entry
than bases. -/
def bigRead : RemoraRead :=
  ⟨bigSig, [Base.A, Base.A, Base.A, Base.A],
    [0, 1, 2147483648, 4294967295, 4294967296], "big", none⟩

/-- Single-base motif `A` with focus 0. -/
def aMotif : Motif := ⟨[[Base.A]], 0⟩

/-- The signal slice of the chunk extracted from `bigRead` at focus
position 2, of length `2^32 - 2`. -/
def bigSignal : List Int := pySlice bigSig 1 4294967295

/-- The chunk the program extracts from `bigRead` at focus position 2
with `chunk_context = (1, 0)` and `kmer_context_bases = (0, 0)` in
fixed-sequence mode.  The re-anchored map `[0, 2^31 - 1, 2^32 - 2]`
is cast to int32, wrapping the final entry to `-2`. -/
def bigChunk : Chunk :=
  ⟨bigSignal, [Base.A, Base.A], [0, 2147483647, -2],
    [], [], 3221225470, 1, -1, "big", 2⟩

theorem bigSig_length : bigSig.length = 4294967296 := by
  unfold bigSig
  rw [List.length_replicate]

theorem bigSignal_def : bigSignal = pySlice bigSig 1 4294967295 := rfl

theorem bigRead_def :
    bigRead = ⟨bigSig, [Base.A, Base.A, Base.A, Base.A],
      [0, 1, 2147483648, 4294967295, 4294967296], "big", none⟩ := rfl

theorem bigChunk_def :
    bigChunk = ⟨bigSignal, [Base.A, Base.A], [0, 2147483647, -2],
      [], [], 3221225470, 1, -1, "big", 2⟩ := rfl

theorem bigRead_sig : bigRead.sig = bigSig := by rw [bigRead_def]

theorem bigChunk_signal : bigChunk.signal = bigSignal := by rw [bigChunk_def]

theorem bigSignal_length : bigSignal.length = 4294967294 := by
  rw [bigSignal_def]
  have h := pySlice_length bigSig 1 4294967295 (by omega) (by omega)
    (by rw [bigSig_length]; omega)
  omega

/-- The encoded tensor of `bigChunk`: the wrapped int32 differences of
the chunk map are `[2^31 - 1, 2^31 - 1]` (both non-negative), so
`np.repeat` succeeds with `2^32 - 2` columns. -/
def bigT : List (List Bool) :=
  List.replicate 2147483647 (baseEnc Base.A) ++
    (List.replicate 2147483647 (baseEnc Base.A) ++ [])

theorem bigT_length : bigT.length = 4294967294 := by
  unfold bigT
  rw [List.length_append, List.length_append, List.length_replicate,
    List.length_nil]

theorem bigSeqNN : bigChunk.seq_nn_input = .ok bigT := by
  rw [bigChunk_def]
  rfl

theorem bigExtract :
    Chunk.extract_chunk_from_read bigRead (0, 0) 1 4294967295 (-1) (some 1)
      (some 3) 3221225471 bigRead.read_id ((2 : Nat) : Int) = .ok bigChunk := by
  simp only [Chunk.extract_chunk_from_read]
  rw [show pySlice bigRead.seq_to_sig_map
      (extractSeqBounds bigRead 1 4294967295 (some 1) (some 3)).1
      ((extractSeqBounds bigRead 1 4294967295 (some 1) (some 3)).2 + 1) =
      [1, 2147483648, 4294967295] from rfl]
  simp only []
  rw [if_neg (by decide)]
  rw [bigChunk_def, bigRead_sig, ← bigSignal_def]
  rfl

theorem bigCheck : bigChunk.check = .ok () := by
  unfold Chunk.check
  rw [bigChunk_signal, bigSignal_length, bigSeqNN]
  rw [if_neg (by omega : ¬ (4294967294 = 0))]
  simp only []
  rw [bigT_length]
  rw [if_neg (by omega : ¬ (4294967294 ≠ 4294967294))]
  rw [if_neg (by decide)]

theorem afterWindow_big :
    afterWindow bigRead (0, 0) 1 4294967295 (-1) (some 1) (some 3) 3221225471
      false 2 = .ok bigChunk := by
  unfold afterWindow
  refine except_bind_ok_intro bigExtract ?_
  refine except_bind_ok_intro
    (show (if false = true then bigChunk.mask_focus_base
        else Except.ok bigChunk) = .ok bigChunk by
      rw [if_neg (by simp)])
    ?_
  exact except_bind_ok_intro bigCheck rfl

theorem processPos_big :
    processPos bigRead [] (1, 0) (0, 0) true false 2 = .ok bigChunk := by
  simp only [processPos]
  rw [if_pos trivial]
  rw [if_neg (by decide), if_neg (by decide)]
  exact afterWindow_big

theorem bigPositions : readPositions aMotif (some 2) false bigRead = .ok [2] :=
  rfl

theorem goPositions_cons_ok {read : RemoraRead} {labelConv : List Int}
    {cc : Int × Int} {kmer : Nat × Nat} {fsl bp : Bool} {m : Nat}
    {rest : List Nat} {acc : List Chunk × List String} {c : Chunk}
    (h : processPos read labelConv cc kmer fsl bp m = .ok c) :
    goPositions read labelConv cc kmer fsl bp none (m :: rest) acc =
      goPositions read labelConv cc kmer fsl bp none rest
        (acc.1 ++ [c], acc.2 ++ ["success"]) := by
  simp only [goPositions]
  rw [h]

theorem goReads_cons_ok {motif : Motif} {fo : Option Nat} {full : Bool}
    {labelConv : List Int} {cc : Int × Int} {kmer : Nat × Nat}
    {fsl bp : Bool} {nc : Option Int} {r : RemoraRead} {rs : List RemoraRead}
    {acc : List Chunk × List String} {pos : List Nat}
    (h : readPositions motif fo full r = .ok pos) :
    goReads motif fo full labelConv cc kmer fsl bp nc (r :: rs) acc =
      goReads motif fo full labelConv cc kmer fsl bp nc rs
        (goPositions r labelConv cc kmer fsl bp nc pos acc) := by
  simp only [goReads]
  rw [h]

theorem goReads_big :
    goReads aMotif (some 2) false [] (1, 0) (0, 0) true false none
      [bigRead] ([], []) = ([bigChunk], ["success"]) := by
  rw [goReads_cons_ok bigPositions]
  rw [goPositions_cons_ok processPos_big]
  rfl

theorem loadChunks_big :
    load_chunks [bigRead] none aMotif [] (1, 0) (0, 0) (some 2) true false
      false = .ok ([bigChunk], ["success"]) := by
  simp only [load_chunks]
  rw [if_neg (by simp)]
  rw [goReads_big]
  rw [if_neg (by decide)]

/-- Claim C3 (counterexample): on a data-model-conforming read whose
chunk window spans `2^32 - 2 ≥ 2^31` signal samples, `load_chunks`
returns a chunk whose re-anchored map was wrapped by the int32 cast
(`.astype(np.int32)`, `data_chunks.py:172`): its final entry is `-2`,
not the chunk's signal length `2^32 - 2`.  The int32-wrapped `np.diff`
values are non-negative and sum to the signal length, so `check`
accepts the chunk; the original unconditional invariant is therefore
false. -/
theorem load_chunks_last_entry_cex :
    load_chunks [bigRead] none aMotif [] (1, 0) (0, 0) (some 2) true false
        false = .ok ([bigChunk], ["success"]) ∧
      bigChunk ∈ [bigChunk] ∧
      bigChunk.seq_to_sig_map.getLast? = some (-2) ∧
      bigChunk.signal.length = 4294967294 ∧
      ¬ bigChunk.seq_to_sig_map.getLast? =
        some ((bigChunk.signal.length : Int)) :=
  ⟨loadChunks_big, List.mem_singleton_self _, rfl,
    by rw [bigChunk_signal, bigSignal_length], by
    intro h
    rw [show bigChunk.seq_to_sig_map.getLast? = some (-2) from rfl] at h
    have h2 := Option.some.inj h
    have h3 : bigChunk.signal.length = 4294967294 := by
      rw [bigChunk_signal, bigSignal_length]
    omega⟩

theorem goPositions_extends {read : RemoraRead} {labelConv : List Int}
    {cc : Int × Int} {kmer : Nat × Nat} {fsl bp : Bool}
    {numChunks : Option Int} :
    ∀ (pos : List Nat) (acc : List Chunk × List String),
      ∃ l h2, goPositions read labelConv cc kmer fsl bp numChunks pos acc =
        (acc.1 ++ l, acc.2 ++ h2) := by
  intro pos
  induction pos with
  | nil => intro acc; exact ⟨[], [], by simp [goPositions]⟩
  | cons m rest ih =>
    intro acc
    simp only [goPositions]
    cases hp : processPos read labelConv cc kmer fsl bp m with
    | error e =>
      obtain ⟨l, h2, heq⟩ := ih (acc.1, acc.2 ++ [e])
      exact ⟨l, [e] ++ h2, by simp only []; rw [heq]; simp⟩
    | ok c =>
      cases numChunks with
      | none =>
        obtain ⟨l, h2, heq⟩ := ih (acc.1 ++ [c], acc.2 ++ ["success"])
        exact ⟨[c] ++ l, ["success"] ++ h2, by simp only []; rw [heq]; simp⟩
      | some n =>
        by_cases hn : n ≤ ((acc.1 ++ [c]).length : Int)
        · exact ⟨[c], ["success"], by simp only []; rw [if_pos hn]⟩
        · obtain ⟨l, h2, heq⟩ := ih (acc.1 ++ [c], acc.2 ++ ["success"])
          exact ⟨[c] ++ l, ["success"] ++ h2,
            by simp only []; rw [if_neg hn, heq]; simp⟩

theorem goPositions_nil_iff {read : RemoraRead} {labelConv : List Int}
    {cc : Int × Int} {kmer : Nat × Nat} {fsl bp : Bool}
    {numChunks : Option Int} :
    ∀ (pos : List Nat) (acc : List Chunk × List String),
      ((goPositions read labelConv cc kmer fsl bp numChunks pos acc).1 = [] ↔
        acc.1 = [] ∧ ∀ m ∈ pos,
          ∃ e, processPos read labelConv cc kmer fsl bp m = .error e) := by
  intro pos
  induction pos with
  | nil => intro acc; simp [goPositions]
  | cons m rest ih =>
    intro acc
    simp only [goPositions]
    cases hp : processPos read labelConv cc kmer fsl bp m with
    | error e =>
      simp only []
      rw [ih (acc.1, acc.2 ++ [e])]
      constructor
      · rintro ⟨h1, h2⟩
        refine ⟨h1, ?_⟩
        intro m' hm'
        rcases List.mem_cons.mp hm' with rfl | hm'
        · exact ⟨e, hp⟩
        · exact h2 m' hm'
      · rintro ⟨h1, h2⟩
        exact ⟨h1, fun m' hm' => h2 m' (List.mem_cons_of_mem _ hm')⟩
    | ok c =>
      simp only []
      constructor
      · intro hnil
        exfalso
        cases numChunks with
        | none =>
          simp only [] at hnil
          obtain ⟨l, h2, heq⟩ := goPositions_extends rest (acc.1 ++ [c], acc.2 ++ ["success"])
          rw [heq] at hnil
          simp at hnil
        | some n =>
          simp only [] at hnil
          split at hnil
          · simp at hnil
          · obtain ⟨l, h2, heq⟩ := goPositions_extends rest (acc.1 ++ [c], acc.2 ++ ["success"])
            rw [heq] at hnil
            simp at hnil
      · rintro ⟨h1, h2⟩
        obtain ⟨e, he⟩ := h2 m (List.mem_cons_self m rest)
        rw [hp] at he
        exact absurd he (by simp)

theorem goReads_nil_iff {motif : Motif} {fo : Option Nat} {full : Bool}
    {labelConv : List Int} {cc : Int × Int} {kmer : Nat × Nat}
    {fsl bp : Bool} {numChunks : Option Int} :
    ∀ (reads : List RemoraRead) (acc : List Chunk × List String),
      ((goReads motif fo full labelConv cc kmer fsl bp numChunks reads
          acc).1 = [] ↔
        acc.1 = [] ∧ ∀ r ∈ reads, ∀ pos,
          readPositions motif fo full r = .ok pos → ∀ m ∈ pos,
            ∃ e, processPos r labelConv cc kmer fsl bp m = .error e) := by
  intro reads
  induction reads with
  | nil => intro acc; simp [goReads]
  | cons r rs ih =>
    intro acc
    simp only [goReads]
    cases hr : readPositions motif fo full r with
    | error e =>
      simp only []
      rw [ih (acc.1, acc.2 ++ [e])]
      constructor
      · rintro ⟨h1, h2⟩
        refine ⟨h1, ?_⟩
        intro r' hr' pos hpos
        rcases List.mem_cons.mp hr' with rfl | hr'
        · rw [hr] at hpos; exact absurd hpos (by simp)
        · exact h2 r' hr' pos hpos
      · rintro ⟨h1, h2⟩
        exact ⟨h1, fun r' hr' => h2 r' (List.mem_cons_of_mem _ hr')⟩
    | ok pos =>
      simp only []
      rw [ih (goPositions r labelConv cc kmer fsl bp numChunks pos acc)]
      rw [goPositions_nil_iff pos acc]
      constructor
      · rintro ⟨⟨h1, h2⟩, h3⟩
        refine ⟨h1, ?_⟩
        intro r' hr' pos' hpos'
        rcases List.mem_cons.mp hr' with rfl | hr'
        · rw [hr] at hpos'
          cases hpos'
          exact h2
        · exact h3 r' hr' pos' hpos'
      · rintro ⟨h1, h2⟩
        refine ⟨⟨h1, h2 r (List.mem_cons_self r rs) pos hr⟩, ?_⟩
        intro r' hr' pos' hpos'
        exact h2 r' (List.mem_cons_of_mem _ hr') pos' hpos'

/-- Claim C9: `load_chunks` raises the fatal "No valid chunks
extracted" error exactly when every focus position of every read fails
(zero chunks succeed); every per-chunk failure is recorded as a
histogram reason without escalating — the only error messages
`load_chunks` can return are the argument-validation message and the
terminal no-valid-chunks message. -/
theorem load_chunks_fatal_iff {reads : List RemoraRead}
    {numChunks : Option Int} {motif : Motif} {labelConv : List Int}
    {cc : Int × Int} {kmer : Nat × Nat} {fo : Option Nat}
    {fsl bp full : Bool}
    (hargs : full = true ∨ fo ≠ none) :
    (load_chunks reads numChunks motif labelConv cc kmer fo fsl bp full =
        .error "No valid chunks extracted" ↔
      ∀ r ∈ reads, ∀ pos, readPositions motif fo full r = .ok pos →
        ∀ m ∈ pos, ∃ e,
          processPos r labelConv cc kmer fsl bp m = .error e) ∧
    (∀ e, load_chunks reads numChunks motif labelConv cc kmer fo fsl bp full
        = .error e →
      e = "Either --focus-offset or --full need to be set." ∨
        e = "No valid chunks extracted") := by
  have hcond : ¬(fo = none ∧ full = false) := by
    rcases hargs with h | h
    · rintro ⟨-, h2⟩; rw [h] at h2; cases h2
    · rintro ⟨h1, -⟩; exact h h1
  have hgo := @goReads_nil_iff motif fo full labelConv cc kmer fsl bp
    numChunks reads ([], [])
  constructor
  · simp only [load_chunks, if_neg hcond]
    constructor
    · intro h
      split at h
      · rename_i hlen
        exact (hgo.mp (List.length_eq_zero.mp hlen)).2
      · exact absurd h (by simp)
    · intro hP
      have hnil : (goReads motif fo full labelConv cc kmer fsl bp numChunks
          reads ([], [])).1 = [] := hgo.mpr ⟨rfl, hP⟩
      rw [if_pos (by simpa using List.length_eq_zero.mpr hnil)]
  · intro e he
    simp only [load_chunks] at he
    rw [if_neg hcond] at he
    split at he
    · right; exact (Except.error.inj he).symm
    · exact absurd he (by simp)

/-- Motif `"CC"` (focus 0), which never matches the example read. -/
def ccMotif : Motif := ⟨[[Base.C], [Base.C]], 0⟩

/-- Witness for C9: the fatal-error characterisation instantiated on a
concrete run in which every read yields zero chunks. -/
theorem load_chunks_fatal_iff_witness :
    (load_chunks [exRead] none ccMotif [] (5, 5) (1, 1) none false false true
        = .error "No valid chunks extracted" ↔
      ∀ r ∈ [exRead], ∀ pos, readPositions ccMotif none true r = .ok pos →
        ∀ m ∈ pos, ∃ e,
          processPos r [] (5, 5) (1, 1) false false m = .error e) ∧
    (∀ e, load_chunks [exRead] none ccMotif [] (5, 5) (1, 1) none false false
        true = .error e →
      e = "Either --focus-offset or --full need to be set." ∨
        e = "No valid chunks extracted") :=
  load_chunks_fatal_iff (Or.inl rfl)

/-- The full chunk-validity invariant of the spec's data model (§3):
non-empty signal, the sequence/map length relation, re-anchored map
(origin 0, final entry the signal length), a non-decreasing map, and
int32-representable map entries (the stored `seq_to_sig_map` is an
int32 array after the `.astype(np.int32)` cast, so its entries lie in
the int32 range by construction; together with the origin-0 and
monotone conjuncts this bounds them by `2^31`). -/
def Chunk.valid (c : Chunk) : Prop :=
  c.signal ≠ [] ∧ c.sequence.length + 1 = c.seq_to_sig_map.length ∧
    c.seq_to_sig_map.head? = some 0 ∧
    c.seq_to_sig_map.getLast? = some (c.signal.length : Int) ∧
    c.seq_to_sig_map.Chain' (fun a b => a ≤ b) ∧
    (∀ x ∈ c.seq_to_sig_map, x < 2 ^ 31)

theorem baseEnc_length (b : Base) : (baseEnc b).length = 4 := by
  cases b <;> rfl

theorem chain'_diffs_nonneg {l : List Int}
    (h : l.Chain' (fun a b => a ≤ b)) : ∀ d ∈ intDiffs l, 0 ≤ d := by
  match l with
  | [] => intro d hd; simp [intDiffs] at hd
  | [a] => intro d hd; simp [intDiffs] at hd
  | a :: b :: t =>
    intro d hd
    rw [List.chain'_cons] at h
    have : intDiffs (a :: b :: t) = (b - a) :: intDiffs (b :: t) := rfl
    rw [this] at hd
    rcases List.mem_cons.mp hd with rfl | hd
    · omega
    · exact chain'_diffs_nonneg h.2 d hd

theorem sum_map_const {l : List α} {f : α → Nat} {k : Nat}
    (h : ∀ x ∈ l, f x = k) : (l.map f).sum = l.length * k := by
  induction l with
  | nil => simp
  | cons a t ih =>
    simp only [List.map_cons, List.sum_cons, List.length_cons]
    rw [h a (List.mem_cons_self a t), ih (fun x hx => h x (List.mem_cons_of_mem a hx))]
    ring

theorem valid_seq_pos {c : Chunk} (h : c.valid) : c.sequence.length ≠ 0 := by
  obtain ⟨hsig, hrel, hhead, hlast, -⟩ := h
  intro hzero
  rw [hzero] at hrel
  match hm : c.seq_to_sig_map, hrel with
  | [x], _ =>
    rw [hm] at hhead hlast
    simp at hhead hlast
    have : c.signal.length = 0 := by omega
    exact hsig (List.length_eq_zero.mp this)

theorem enc_kmers_blocks_len {c : Chunk} (off : Nat)
    (hoff : off < c.kmer_len) :
    (((c.seq_w_context.drop off).take c.sequence.length).map baseEnc).length
      = c.sequence.length := by
  have hswc : c.seq_w_context.length =
      c.before_context_seq.length + c.sequence.length +
        c.after_context_seq.length := by
    simp [Chunk.seq_w_context]
    omega
  simp only [List.length_map, List.length_take, List.length_drop, hswc]
  unfold Chunk.kmer_len at hoff
  omega

theorem enc_kmers_eq_of_ne {c : Chunk} (hne : c.sequence.length ≠ 0) :
    c.enc_kmers = .ok ((List.range c.sequence.length).map
      (fun j => (((List.range c.kmer_len).map
        (fun off =>
          ((c.seq_w_context.drop off).take c.sequence.length).map baseEnc)).map
            (fun b => b.getD j [])).flatten)) := by
  unfold Chunk.enc_kmers
  rw [if_neg hne]
  rw [if_pos]
  rw [List.all_eq_true]
  intro b hb
  rw [List.mem_map] at hb
  obtain ⟨off, hoff, rfl⟩ := hb
  exact decide_eq_true (enc_kmers_blocks_len off (List.mem_range.mp hoff))

theorem enc_kmers_col_height {c : Chunk} (j : Nat) (hj : j < c.sequence.length) :
    ((((List.range c.kmer_len).map
      (fun off =>
        ((c.seq_w_context.drop off).take c.sequence.length).map baseEnc)).map
          (fun b => b.getD j [])).flatten).length = 4 * c.kmer_len := by
  rw [List.length_flatten]
  have hall : ∀ x ∈ ((List.range c.kmer_len).map
      (fun off =>
        ((c.seq_w_context.drop off).take c.sequence.length).map baseEnc)).map
          (fun b => b.getD j []), x.length = 4 := by
    intro x hx
    rw [List.mem_map] at hx
    obtain ⟨b, hb, rfl⟩ := hx
    rw [List.mem_map] at hb
    obtain ⟨off, hoff, rfl⟩ := hb
    have hlen := enc_kmers_blocks_len (c := c) off (List.mem_range.mp hoff)
    have hjlt : j < (((c.seq_w_context.drop off).take
        c.sequence.length).map baseEnc).length := by omega
    rw [List.getD_eq_getElem _ _ hjlt]
    have hmem := List.getElem_mem hjlt
    rw [List.mem_map] at hmem
    obtain ⟨b, -, hb⟩ := hmem
    rw [← hb, baseEnc_length]
  rw [sum_map_const hall]
  simp [Nat.mul_comm]

/-- Core shape fact shared by C4 and C7: a valid chunk's feature
encoding succeeds, has one column per signal sample, and every column
has height `4 * kmer_len`. -/
theorem seq_nn_ok_of_valid {c : Chunk} (h : c.valid) :
    ∃ t, c.seq_nn_input = .ok t ∧ t.length = c.signal.length ∧
      ∀ col ∈ t, col.length = 4 * c.kmer_len := by
  have hne := valid_seq_pos h
  obtain ⟨hsig, hrel, hhead, hlast, hchain, hub⟩ := h
  have hrange : ∀ x ∈ c.seq_to_sig_map, 0 ≤ x ∧ x < 2 ^ 31 :=
    fun x hx => ⟨nonneg_of_head_chain hhead hchain x hx, hub x hx⟩
  have hbr : c.base_sig_lens = intDiffs c.seq_to_sig_map := by
    rw [base_sig_lens_eq]; exact int32Diffs_eq_intDiffs hrange
  have henc := enc_kmers_eq_of_ne hne
  unfold Chunk.seq_nn_input
  rw [henc]
  simp only [Bind.bind, Except.bind]
  set ek := (List.range c.sequence.length).map
    (fun j => (((List.range c.kmer_len).map
      (fun off =>
        ((c.seq_w_context.drop off).take c.sequence.length).map baseEnc)).map
          (fun b => b.getD j [])).flatten) with hek
  have heklen : ek.length = c.sequence.length := by
    rw [hek, List.length_map, List.length_range]
  have hnonneg := chain'_diffs_nonneg hchain
  have hreplen : c.base_sig_lens.length = ek.length := by
    rw [hbr, intDiffs_length, heklen]; omega
  unfold npRepeatCols
  rw [if_neg, if_pos hreplen]
  · refine ⟨_, rfl, ?_, ?_⟩
    · rw [flatten_replicate_length ek c.base_sig_lens hreplen]
      have hts : ((c.base_sig_lens.map Int.toNat).sum : Int) =
          c.base_sig_lens.sum :=
        sum_toNat_of_nonneg _ (by rw [hbr]; exact hnonneg)
      have hmapne : c.seq_to_sig_map ≠ [] := by
        intro hnil
        rw [hnil] at hrel
        simp at hrel
      have htel := intDiffs_sum c.seq_to_sig_map hmapne
      rw [← hbr] at htel
      rw [hhead, hlast] at htel
      simp only [Option.getD_some] at htel
      omega
    · intro col hcol
      have := flatten_replicate_mem ek c.base_sig_lens col hcol
      rw [hek, List.mem_map] at this
      obtain ⟨j, hj, rfl⟩ := this
      exact enc_kmers_col_height j (List.mem_range.mp hj)
  · rw [Bool.not_eq_true, List.any_eq_false]
    intro r hr
    rw [hbr] at hr
    simpa using hnonneg r hr

/-- Claim C4: for every chunk satisfying the chunk-validity invariant,
the encoded feature tensor has exactly
`4 * (len(before_context_seq) + len(after_context_seq) + 1)` rows and
exactly `len(signal)` columns. -/
theorem seq_nn_input_shape {c : Chunk} (h : c.valid) :
    ∃ t, c.seq_nn_input = .ok t ∧ t.length = c.signal.length ∧
      ∀ col ∈ t, col.length =
        4 * (c.before_context_seq.length + c.after_context_seq.length + 1) :=
  seq_nn_ok_of_valid h

/-- The first example chunk is valid. -/
theorem exChunk0_valid : exChunk0.valid := by
  have hex : exChunk0 =
      ⟨[10, 11, 12, 13, 14, 15, 16, 17, 18, 19], [Base.C], [0, 10],
        [Base.A], [Base.G], 5, 0, -1, "r", 1⟩ := by rfl
  rw [hex]
  refine ⟨by simp, by simp, rfl, rfl, ?_, by decide⟩
  exact List.chain'_pair.mpr (by omega)

/-- Witness for C4: the shape invariant evaluated on a concrete valid
chunk. -/
theorem seq_nn_input_shape_witness :
    (exChunk0.valid) ∧
      ∃ t, exChunk0.seq_nn_input = .ok t ∧ t.length = exChunk0.signal.length ∧
        ∀ col ∈ t, col.length =
          4 * (exChunk0.before_context_seq.length +
            exChunk0.after_context_seq.length + 1) :=
  ⟨exChunk0_valid, seq_nn_input_shape exChunk0_valid⟩

/-- The rejection reasons of the fixed-signal-length window checks. -/
def windowRejectSig : List String :=
  ["Invalid signal start", "Invalid signal end", "Empty signal"]

/-- The rejection reasons of the fixed-sequence-length window checks. -/
def windowRejectSeq : List String := ["Invalid base start", "Invalid base end"]

/-- Error messages that can arise after the window checks passed
(extraction, masking, validation). -/
def downstreamMsgs : List String :=
  ["index 0 is out of bounds for axis 0 with size 0",
   "Invalid context seq extracted", "string index out of range",
   "No signal for chunk", "Invalid encoded sig length",
   "Invalid sig to seq map length", "need at least one array to stack",
   "all the input array dimensions must match",
   "negative dimensions are not allowed",
   "operands could not be broadcast together"]

theorem extract_err {read : RemoraRead} {kmer : Nat × Nat}
    {ss se lbl : Int} {sO eO : Option Int} {sfp : Int} {rid : String}
    {rsp : Int} {e : String}
    (h : Chunk.extract_chunk_from_read read kmer ss se lbl sO eO sfp rid rsp
      = .error e) : e ∈ downstreamMsgs := by
  simp only [Chunk.extract_chunk_from_read] at h
  split at h
  · cases h; decide
  · split at h
    · cases h; decide
    · exact absurd h (by simp)

theorem mask_err {c : Chunk} {e : String}
    (h : c.mask_focus_base = .error e) : e ∈ downstreamMsgs := by
  unfold Chunk.mask_focus_base at h
  split at h
  · cases h; decide
  · split at h <;> exact absurd h (by simp)

theorem seq_nn_err {c : Chunk} {e : String}
    (h : c.seq_nn_input = .error e) : e ∈ downstreamMsgs := by
  unfold Chunk.seq_nn_input at h
  cases henc : c.enc_kmers with
  | error e2 =>
    rw [henc] at h
    simp only [Bind.bind, Except.bind] at h
    cases h
    simp only [Chunk.enc_kmers] at henc
    split at henc
    · cases henc; decide
    · split at henc
      · exact absurd henc (by simp)
      · cases henc; decide
  | ok ek =>
    rw [henc] at h
    simp only [Bind.bind, Except.bind] at h
    unfold npRepeatCols at h
    split at h
    · cases h; decide
    · split at h
      · exact absurd h (by simp)
      · split at h
        · exact absurd h (by simp)
        · cases h; decide

theorem check_err {c : Chunk} {e : String}
    (h : c.check = .error e) : e ∈ downstreamMsgs := by
  unfold Chunk.check at h
  split at h
  · cases h; decide
  · split at h
    · rename_i e2 hnn
      cases h
      exact seq_nn_err hnn
    · split at h
      · cases h; decide
      · split at h
        · cases h; decide
        · exact absurd h (by simp)

theorem afterWindow_err {read : RemoraRead} {kmer : Nat × Nat}
    {ss se lbl : Int} {sO eO : Option Int} {sfp : Int} {bp : Bool} {m : Nat}
    {e : String}
    (h : afterWindow read kmer ss se lbl sO eO sfp bp m = .error e) :
    e ∈ downstreamMsgs := by
  unfold afterWindow at h
  cases hext : Chunk.extract_chunk_from_read read kmer ss se lbl sO eO sfp
      read.read_id (m : Int) with
  | error e2 =>
    rw [hext] at h
    simp only [Bind.bind, Except.bind] at h
    cases h
    exact extract_err hext
  | ok c0 =>
    rw [hext] at h
    simp only [Bind.bind, Except.bind] at h
    cases hmask : (if bp = true then c0.mask_focus_base else Except.ok c0) with
    | error e2 =>
      rw [hmask] at h
      simp only [Bind.bind, Except.bind] at h
      cases h
      cases bp with
      | false => rw [if_neg (by simp)] at hmask; exact absurd hmask (by simp)
      | true => rw [if_pos rfl] at hmask; exact mask_err hmask
    | ok c1 =>
      rw [hmask] at h
      simp only [Bind.bind, Except.bind] at h
      cases hchk : c1.check with
      | error e2 =>
        rw [hchk] at h
        simp only [Bind.bind, Except.bind] at h
        cases h
        exact check_err hchk
      | ok u =>
        rw [hchk] at h
        simp only [Bind.bind, Except.bind] at h
        exact absurd h (by simp)

/-- Is this per-position outcome one of the given window rejections? -/
def isWindowReject (reasons : List String) (r : Except String Chunk) : Bool :=
  match r with
  | .error e => reasons.contains e
  | .ok _ => false

theorem not_window_reject_of_downstream {reasons : List String}
    {r : Except String Chunk}
    (hsub : ∀ e ∈ downstreamMsgs, reasons.contains e = false)
    (hr : ∀ e, r = .error e → e ∈ downstreamMsgs) :
    isWindowReject reasons r = false := by
  cases r with
  | ok c => rfl
  | error e => exact hsub e (hr e rfl)

/-- Claim C6: a focus position is rejected with one of the named
window-rejection reasons (producing no chunk, without raising) exactly
when the window is invalid: in fixed-signal-length mode when
`sig_focus_pos - before < 0`, `sig_focus_pos + after` exceeds the
read's total signal length, or the window is empty; in
fixed-sequence-length mode when `m - before ≤ 0` or
`m + after + 1 ≥ len(seq_to_sig_map)`. -/
theorem processPos_window_reject (read : RemoraRead) (labelConv : List Int)
    (cc : Int × Int) (kmer : Nat × Nat) (bp : Bool) (m : Nat)
    (hlast : read.seq_to_sig_map.getLast? = some (read.sig.length : Int)) :
    (isWindowReject windowRejectSig
        (processPos read labelConv cc kmer false bp m) = true ↔
      (sigFocusOf read m - cc.1 < 0 ∨
        (read.sig.length : Int) < sigFocusOf read m + cc.2 ∨
        sigFocusOf read m + cc.2 ≤ sigFocusOf read m - cc.1)) ∧
    (isWindowReject windowRejectSeq
        (processPos read labelConv cc kmer true bp m) = true ↔
      ((m : Int) - cc.1 ≤ 0 ∨
        (read.seq_to_sig_map.length : Int) ≤ (m : Int) + cc.2 + 1)) := by
  have hgetD : (read.seq_to_sig_map.getLast?).getD 0 = (read.sig.length : Int) := by
    rw [hlast]; rfl
  constructor
  · simp only [processPos, Bool.false_eq_true, if_false]
    by_cases h1 : sigFocusOf read m - cc.1 < 0
    · rw [if_pos h1]
      exact iff_of_true (by decide) (Or.inl h1)
    · rw [if_neg h1]
      by_cases h2 : (read.seq_to_sig_map.getLast?).getD 0 <
          sigFocusOf read m + cc.2
      · rw [if_pos h2]
        rw [hgetD] at h2
        exact iff_of_true (by decide) (Or.inr (Or.inl h2))
      · rw [if_neg h2]
        by_cases h3 : sigFocusOf read m + cc.2 ≤ sigFocusOf read m - cc.1
        · rw [if_pos h3]
          exact iff_of_true (by decide) (Or.inr (Or.inr h3))
        · rw [if_neg h3]
          rw [hgetD] at h2
          refine iff_of_false ?_ (by push_neg; exact ⟨not_lt.mp h1, not_lt.mp h2, not_le.mp h3⟩)
          rw [not_window_reject_of_downstream (by decide)
            (fun e he => afterWindow_err he)]
          simp
  · simp only [processPos, if_true]
    by_cases h1 : (m : Int) - cc.1 ≤ 0
    · rw [if_pos h1]
      exact iff_of_true (by decide) (Or.inl h1)
    · rw [if_neg h1]
      by_cases h2 : (read.seq_to_sig_map.length : Int) ≤ (m : Int) + cc.2 + 1
      · rw [if_pos h2]
        exact iff_of_true (by decide) (Or.inr h2)
      · rw [if_neg h2]
        refine iff_of_false ?_ (by push_neg; exact ⟨not_le.mp h1, not_le.mp h2⟩)
        rw [not_window_reject_of_downstream (by decide)
          (fun e he => afterWindow_err he)]
        simp

/-- Witness for C6: the rejection characterisation instantiated on the
example read at focus position 1. -/
theorem processPos_window_reject_witness :
    (isWindowReject windowRejectSig
        (processPos exRead [] (5, 5) (1, 1) false false 1) = true ↔
      (sigFocusOf exRead 1 - 5 < 0 ∨
        (exRead.sig.length : Int) < sigFocusOf exRead 1 + 5 ∨
        sigFocusOf exRead 1 + 5 ≤ sigFocusOf exRead 1 - 5)) ∧
    (isWindowReject windowRejectSeq
        (processPos exRead [] (5, 5) (1, 1) true false 1) = true ↔
      ((1 : Int) - 5 ≤ 0 ∨
        (exRead.seq_to_sig_map.length : Int) ≤ (1 : Int) + 5 + 1)) :=
  processPos_window_reject exRead [] (5, 5) (1, 1) false 1 (by rfl)

/-- Column `j` of the k-mer block matrix of a chunk (the encoded
sliding k-mer of window base `j`). -/
def colOf (c : Chunk) (j : Nat) : List Bool :=
  (((List.range c.kmer_len).map
    (fun off => ((c.seq_w_context.drop off).take c.sequence.length).map baseEnc)).map
      (fun b => b.getD j [])).flatten

theorem enc_kmers_eq_colOf {c : Chunk} (hne : c.sequence.length ≠ 0) :
    c.enc_kmers = .ok ((List.range c.sequence.length).map
      (fun j => colOf c j)) :=
  enc_kmers_eq_of_ne hne

theorem seq_nn_eq_of_valid {c : Chunk} (hv : c.valid) :
    c.seq_nn_input = .ok
      (((((List.range c.sequence.length).map (fun j => colOf c j)).zip
        c.base_sig_lens).map (fun p => List.replicate p.2.toNat p.1)).flatten) := by
  have hne := valid_seq_pos hv
  obtain ⟨hsig, hrel, hhead, hlast, hchain, hub⟩ := hv
  have hbr : c.base_sig_lens = intDiffs c.seq_to_sig_map := by
    rw [base_sig_lens_eq]
    exact int32Diffs_eq_intDiffs
      (fun x hx => ⟨nonneg_of_head_chain hhead hchain x hx, hub x hx⟩)
  unfold Chunk.seq_nn_input
  rw [enc_kmers_eq_colOf hne]
  simp only [Bind.bind, Except.bind]
  unfold npRepeatCols
  rw [if_neg, if_pos]
  · rw [hbr, intDiffs_length, List.length_map, List.length_range]
    omega
  · rw [Bool.not_eq_true, List.any_eq_false]
    intro r hr
    rw [hbr] at hr
    simpa using chain'_diffs_nonneg hchain r hr

theorem flatten_replicate_getD (cols : List (List Bool)) (reps : List Int)
    (hlen : reps.length = cols.length) (hnn : ∀ r ∈ reps, 0 ≤ r) :
    ∀ j i, j < cols.length →
      (((reps.take j).map Int.toNat).sum ≤ i) →
      (i < ((reps.take (j + 1)).map Int.toNat).sum) →
      (((cols.zip reps).map (fun p => List.replicate p.2.toNat p.1)).flatten).getD
        i [] = cols.getD j [] := by
  induction cols generalizing reps with
  | nil => intro j i hj _ _; simp at hj
  | cons c0 cs ih =>
    intro j i hj hlow hhigh
    cases reps with
    | nil => simp at hlen
    | cons r0 rs =>
      simp only [List.zip_cons_cons, List.map_cons, List.flatten_cons]
      cases j with
      | zero =>
        simp only [List.take_succ_cons, List.take_zero, List.map_cons,
          List.map_nil, List.sum_cons, List.sum_nil] at hhigh
        rw [List.getD_append _ _ _ _ (by simpa using by omega)]
        rw [List.getD_eq_getElem _ _ (by simpa using by omega)]
        simp
      | succ j' =>
        simp only [List.take_succ_cons, List.map_cons, List.sum_cons] at hlow hhigh
        rw [List.getD_append_right _ _ _ _ (by simpa using by omega)]
        simp only [List.length_replicate]
        have := ih rs (by simpa using hlen)
          (fun r hr => hnn r (List.mem_cons_of_mem _ hr)) j' (i - r0.toNat)
          (by simpa using hj) (by omega) (by omega)
        simpa using this

theorem diffs_take_sum (l : List Int) :
    ∀ j, j < l.length →
      ((intDiffs l).take j).sum = l.getD j 0 - l.getD 0 0 := by
  match l with
  | [] => intro j hj; simp at hj
  | [a] =>
    intro j hj
    simp only [List.length_singleton] at hj
    obtain rfl : j = 0 := by omega
    simp [intDiffs]
  | a :: b :: t =>
    intro j hj
    cases j with
    | zero => simp
    | succ j' =>
      have : intDiffs (a :: b :: t) = (b - a) :: intDiffs (b :: t) := rfl
      rw [this, List.take_succ_cons, List.sum_cons,
        diffs_take_sum (b :: t) j' (by simpa using hj)]
      simp only [List.getD_cons_succ, List.getD_cons_zero]
      omega

theorem range_map_getD {α : Type} {f : Nat → α} {n j : Nat} (hj : j < n)
    (d : α) : ((List.range n).map f).getD j d = f j := by
  rw [List.getD_eq_getElem _ _ (by simpa using hj)]
  simp

theorem getD_set_ne {α : Type} (l : List α) (i k : Nat) (a d : α)
    (h : i ≠ k) : (l.set i a).getD k d = l.getD k d := by
  by_cases hk : k < l.length
  · rw [List.getD_eq_getElem _ _ (by simpa using hk),
      List.getD_eq_getElem _ _ hk]
    exact List.getElem_set_ne h _
  · rw [List.getD_eq_default _ _ (by simpa using not_lt.mp hk),
      List.getD_eq_default _ _ (not_lt.mp hk)]

theorem colOf_char {c : Chunk} {j : Nat} (hj : j < c.sequence.length) :
    colOf c j = ((List.range c.kmer_len).map
      (fun off => baseEnc (c.seq_w_context.getD (off + j) Base.N))).flatten := by
  unfold colOf
  rw [List.map_map]
  congr 1
  apply List.map_congr_left
  intro off hoff
  have hoff' := List.mem_range.mp hoff
  have hblen := enc_kmers_blocks_len (c := c) off hoff'
  have hswc : c.seq_w_context.length =
      c.before_context_seq.length + c.sequence.length +
        c.after_context_seq.length := by
    simp [Chunk.seq_w_context]; omega
  have hidx : off + j < c.seq_w_context.length := by
    unfold Chunk.kmer_len at hoff'
    omega
  simp only [Function.comp]
  rw [List.getD_eq_getElem _ _ (by omega)]
  rw [List.getElem_map, List.getElem_take, List.getElem_drop]
  rw [List.getD_eq_getElem _ _ hidx]

theorem colOf_congr {c c' : Chunk} (hK : c'.kmer_len = c.kmer_len)
    (hn : c'.sequence.length = c.sequence.length)
    (j : Nat) (hj : j < c.sequence.length)
    (hagree : ∀ off, off < c.kmer_len →
      c'.seq_w_context.getD (off + j) Base.N =
        c.seq_w_context.getD (off + j) Base.N) :
    colOf c' j = colOf c j := by
  rw [colOf_char (by omega), colOf_char hj, hK]
  congr 1
  apply List.map_congr_left
  intro off hoff
  rw [hagree off (List.mem_range.mp hoff)]

theorem pySlice_zero (l : List α) (j : Int) (h0 : 0 ≤ j) :
    pySlice l 0 j = l.take j.toNat := by
  simp only [pySlice]
  rw [if_neg (by omega), if_neg (by omega)]
  have h1 : (min (0 : Int) (l.length : Int)).toNat = 0 := by omega
  have h2 : (min j (l.length : Int)).toNat = min j.toNat l.length := by omega
  rw [h1, h2, List.drop_zero]
  by_cases hc : j.toNat ≤ l.length
  · rw [min_eq_left hc]
  · rw [min_eq_right (by omega), List.take_length,
      List.take_of_length_le (by omega)]

theorem pySlice_to_len (l : List α) (i : Int) (h0 : 0 ≤ i) :
    pySlice l i (l.length : Int) = l.drop i.toNat := by
  simp only [pySlice]
  rw [if_neg (by omega), if_neg (by omega)]
  have h1 : (min (l.length : Int) (l.length : Int)).toNat = l.length := by
    omega
  have h2 : (min i (l.length : Int)).toNat = min i.toNat l.length := by omega
  rw [h1, h2, List.take_length]
  by_cases hc : i.toNat ≤ l.length
  · rw [min_eq_left hc]
  · rw [min_eq_right (by omega), List.drop_length,
      List.drop_eq_nil_of_le (by omega)]

theorem pyIndex_nonneg {l : List α} {i : Int} (h0 : 0 ≤ i)
    (hn : i < (l.length : Int)) : pyIndex l i = l.get? i.toNat := by
  simp only [pyIndex]
  rw [if_neg (by omega : ¬ i < 0), if_pos ⟨h0, hn⟩]

theorem get?_eq_some_getD {l : List α} {n : Nat} (d : α) (h : n < l.length) :
    l.get? n = some (l.getD n d) := by
  rw [List.getD_eq_getElem _ _ h, List.get?_eq_getElem?,
    List.getElem?_eq_getElem h]

theorem mask_ok_id {c : Chunk} (hf0 : 0 ≤ c.seq_focus_pos)
    (hfn : c.seq_focus_pos < (c.sequence.length : Int))
    (hb : c.sequence.getD c.seq_focus_pos.toNat Base.N = Base.N) :
    c.mask_focus_base = .ok c := by
  have hlt : c.seq_focus_pos.toNat < c.sequence.length := by omega
  unfold Chunk.mask_focus_base
  rw [pyIndex_nonneg hf0 hfn, get?_eq_some_getD Base.N hlt]
  simp only []
  rw [if_pos hb]

theorem mask_ok_set {c : Chunk} (hf0 : 0 ≤ c.seq_focus_pos)
    (hfn : c.seq_focus_pos < (c.sequence.length : Int))
    (hb : c.sequence.getD c.seq_focus_pos.toNat Base.N ≠ Base.N) :
    c.mask_focus_base = .ok { c with
      sequence := c.sequence.set c.seq_focus_pos.toNat Base.N } := by
  have hlt : c.seq_focus_pos.toNat < c.sequence.length := by omega
  unfold Chunk.mask_focus_base
  rw [pyIndex_nonneg hf0 hfn, get?_eq_some_getD Base.N hlt]
  simp only []
  rw [if_neg hb]
  have hseq : pySlice c.sequence 0 c.seq_focus_pos ++ [Base.N] ++
      pySlice c.sequence (c.seq_focus_pos + 1) (c.sequence.length : Int) =
      c.sequence.set c.seq_focus_pos.toNat Base.N := by
    rw [pySlice_zero _ _ hf0, pySlice_to_len _ _ (by omega)]
    rw [List.set_eq_take_cons_drop Base.N hlt]
    have h3 : (c.seq_focus_pos + 1).toNat = c.seq_focus_pos.toNat + 1 := by
      omega
    rw [h3]
    simp
  rw [hseq]

theorem base_sums {c : Chunk} (hhead : c.seq_to_sig_map.head? = some 0)
    (hchain : c.seq_to_sig_map.Chain' (fun a b => a ≤ b))
    (hub : ∀ x ∈ c.seq_to_sig_map, x < 2 ^ 31)
    (j : Nat) (hj : j < c.seq_to_sig_map.length) :
    ((((c.base_sig_lens.take j).map Int.toNat).sum : Int)) =
      c.seq_to_sig_map.getD j 0 := by
  have h0 : c.seq_to_sig_map.getD 0 0 = 0 := by
    cases hm : c.seq_to_sig_map with
    | nil => rw [hm] at hhead; simp at hhead
    | cons x t =>
      rw [hm] at hhead
      simp only [List.head?_cons, Option.some.injEq] at hhead
      simp [hhead]
  have hbr : c.base_sig_lens = intDiffs c.seq_to_sig_map := by
    rw [base_sig_lens_eq]
    exact int32Diffs_eq_intDiffs
      (fun x hx => ⟨nonneg_of_head_chain hhead hchain x hx, hub x hx⟩)
  have htake := diffs_take_sum c.seq_to_sig_map j hj
  have hnn : ∀ r ∈ (intDiffs c.seq_to_sig_map).take j, 0 ≤ r :=
    fun r hr => chain'_diffs_nonneg hchain r (List.mem_of_mem_take hr)
  have hcast := sum_toNat_of_nonneg _ hnn
  rw [hbr]
  omega

theorem swc_set_getD {c : Chunk} (fn k : Nat)
    (hne : k ≠ c.before_context_seq.length + fn) :
    (c.before_context_seq ++ c.sequence.set fn Base.N ++
      c.after_context_seq).getD k Base.N =
      c.seq_w_context.getD k Base.N := by
  unfold Chunk.seq_w_context
  by_cases hmid : k < c.before_context_seq.length + c.sequence.length
  · rw [List.getD_append _ _ _ _
      (show k < (c.before_context_seq ++ c.sequence.set fn Base.N).length by
        simp [List.length_set]; omega)]
    rw [List.getD_append _ _ _ _
      (show k < (c.before_context_seq ++ c.sequence).length by
        simp; omega)]
    by_cases hb : k < c.before_context_seq.length
    · rw [List.getD_append _ _ _ _ hb, List.getD_append _ _ _ _ hb]
    · rw [List.getD_append_right _ _ _ _ (by omega),
        List.getD_append_right _ _ _ _ (by omega)]
      exact getD_set_ne _ _ _ _ _ (by omega)
  · rw [List.getD_append_right _ _ _ _
      (show (c.before_context_seq ++ c.sequence.set fn Base.N).length ≤ k by
        simp [List.length_set]; omega)]
    rw [List.getD_append_right _ _ _ _
      (show (c.before_context_seq ++ c.sequence).length ≤ k by
        simp; omega)]
    simp [List.length_set]

theorem seq_nn_getD_spans {c : Chunk} (hv : c.valid) {t : List (List Bool)}
    (hT : c.seq_nn_input = .ok t) (j i : Nat) (hj : j < c.sequence.length)
    (hlow : c.seq_to_sig_map.getD j 0 ≤ (i : Int))
    (hhigh : (i : Int) < c.seq_to_sig_map.getD (j + 1) 0) :
    t.getD i [] = colOf c j := by
  have heq := seq_nn_eq_of_valid hv
  rw [hT] at heq
  have ht := Except.ok.inj heq
  subst ht
  obtain ⟨hsig, hrel, hhead, hlast, hchain, hub⟩ := hv
  have hbr : c.base_sig_lens = intDiffs c.seq_to_sig_map := by
    rw [base_sig_lens_eq]
    exact int32Diffs_eq_intDiffs
      (fun x hx => ⟨nonneg_of_head_chain hhead hchain x hx, hub x hx⟩)
  have hnn : ∀ r ∈ c.base_sig_lens, 0 ≤ r := by
    rw [hbr]; exact chain'_diffs_nonneg hchain
  have hlenr : c.base_sig_lens.length =
      ((List.range c.sequence.length).map (fun j => colOf c j)).length := by
    rw [hbr, intDiffs_length, List.length_map, List.length_range]
    omega
  have hsj := base_sums hhead hchain hub j (by omega)
  have hsj1 := base_sums hhead hchain hub (j + 1) (by omega)
  rw [flatten_replicate_getD _ c.base_sig_lens hlenr hnn j i
    (by rw [List.length_map, List.length_range]; omega) (by omega) (by omega)]
  rw [range_map_getD hj ([] : List Bool)]

/-- Claim C7 (amended): masking an in-range focus base that is not
already `N` re-encodes to a tensor that can differ only in the signal
columns of window bases within k-mer reach of the focus
(`f - after ≤ j ≤ f + before`); columns in the signal span of any
window base outside that reach are unchanged — not merely the focus
base's own span, as the original claim stated.  If the focus base is
already `N`, masking changes nothing at all. -/
theorem mask_focus_base_frame {c : Chunk} (hv : c.valid)
    (hf0 : 0 ≤ c.seq_focus_pos)
    (hfn : c.seq_focus_pos < (c.sequence.length : Int)) :
    (c.sequence.getD c.seq_focus_pos.toNat Base.N = Base.N →
      c.mask_focus_base = .ok c) ∧
    (c.sequence.getD c.seq_focus_pos.toNat Base.N ≠ Base.N →
      c.mask_focus_base = .ok { c with
        sequence := c.sequence.set c.seq_focus_pos.toNat Base.N } ∧
      ∃ t t', c.seq_nn_input = .ok t ∧
        ({ c with sequence := c.sequence.set c.seq_focus_pos.toNat Base.N }
          : Chunk).seq_nn_input = .ok t' ∧
        ∀ j : Nat, j < c.sequence.length →
          ((j : Int) < c.seq_focus_pos - (c.after_context_seq.length : Int) ∨
            c.seq_focus_pos + (c.before_context_seq.length : Int) < (j : Int)) →
          ∀ i : Nat, c.seq_to_sig_map.getD j 0 ≤ (i : Int) →
            (i : Int) < c.seq_to_sig_map.getD (j + 1) 0 →
            t'.getD i [] = t.getD i []) := by
  constructor
  · exact fun hN => mask_ok_id hf0 hfn hN
  · intro hB
    refine ⟨mask_ok_set hf0 hfn hB, ?_⟩
    have hn' : ({ c with
        sequence := c.sequence.set c.seq_focus_pos.toNat Base.N }
          : Chunk).sequence.length = c.sequence.length := by
      simp [List.length_set]
    have hv' : ({ c with
        sequence := c.sequence.set c.seq_focus_pos.toNat Base.N }
          : Chunk).valid := by
      obtain ⟨h1, h2, h3, h4, h5⟩ := hv
      exact ⟨h1, by rw [hn']; exact h2, h3, h4, h5⟩
    obtain ⟨t, hT, -, -⟩ := seq_nn_ok_of_valid hv
    obtain ⟨t', hT', -, -⟩ := seq_nn_ok_of_valid hv'
    refine ⟨t, t', hT, hT', ?_⟩
    intro j hj hout i hlow hhigh
    have hfnat : (c.seq_focus_pos.toNat : Int) = c.seq_focus_pos :=
      Int.toNat_of_nonneg hf0
    rw [seq_nn_getD_spans hv hT j i hj hlow hhigh]
    rw [seq_nn_getD_spans hv' hT' j i (by rw [hn']; exact hj) hlow hhigh]
    apply colOf_congr
    · rfl
    · exact hn'
    · exact hj
    · intro off hoff
      have hoff2 : off <
          c.before_context_seq.length + c.after_context_seq.length + 1 := hoff
      exact @swc_set_getD c c.seq_focus_pos.toNat (off + j) (by omega)

/-- A small valid chunk: sequence `"CA"`, one signal sample per base,
context `"G"`/`"T"`, focus at window position 0 (base `C`). -/
def cexChunk : Chunk :=
  ⟨[3, 4], [Base.C, Base.A], [0, 1, 2], [Base.G], [Base.T], 0, 0, -1, "x", 0⟩

/-- `cexChunk` after masking its focus base. -/
def cexMasked : Chunk := (cexChunk.mask_focus_base.toOption).getD cexChunk

/-- Claim C7 (counterexample): masking the focus base of `cexChunk`
(which is not `N`) changes tensor column 1, although column 1 is not in
the focus base's own signal span `[map[0], map[1]) = [0, 1)`: the
sliding k-mer view also re-encodes neighbouring bases' columns.  This
refutes the claim that re-encoding changes only the columns of the
focus base's own signal span. -/
theorem mask_changes_non_focus_column :
    cexChunk.sequence.getD cexChunk.seq_focus_pos.toNat Base.N ≠ Base.N ∧
    cexChunk.mask_focus_base = .ok cexMasked ∧
    ¬(cexChunk.seq_to_sig_map.getD cexChunk.seq_focus_pos.toNat 0 ≤ (1 : Int) ∧
      (1 : Int) < cexChunk.seq_to_sig_map.getD
        (cexChunk.seq_focus_pos.toNat + 1) 0) ∧
    (cexMasked.seq_nn_input.toOption.getD []).getD 1 [] ≠
      (cexChunk.seq_nn_input.toOption.getD []).getD 1 [] := by
  exact ⟨by decide, by rfl, by decide, by decide⟩

/-- `cexChunk` satisfies the chunk-validity invariant. -/
theorem cexChunk_valid : cexChunk.valid := by
  refine ⟨by simp [cexChunk], by simp [cexChunk], rfl, rfl, ?_⟩
  simp [cexChunk, List.chain'_cons]

/-- Witness for the amended C7: the frame property instantiated on
`cexChunk`. -/
theorem mask_focus_base_frame_witness :
    cexChunk.valid ∧ 0 ≤ cexChunk.seq_focus_pos ∧
      ((cexChunk.sequence.getD cexChunk.seq_focus_pos.toNat Base.N = Base.N →
        cexChunk.mask_focus_base = .ok cexChunk) ∧
      (cexChunk.sequence.getD cexChunk.seq_focus_pos.toNat Base.N ≠ Base.N →
        cexChunk.mask_focus_base = .ok { cexChunk with
          sequence :=
            cexChunk.sequence.set cexChunk.seq_focus_pos.toNat Base.N } ∧
        ∃ t t', cexChunk.seq_nn_input = .ok t ∧
          ({ cexChunk with sequence :=
            cexChunk.sequence.set cexChunk.seq_focus_pos.toNat Base.N }
            : Chunk).seq_nn_input = .ok t' ∧
          ∀ j : Nat, j < cexChunk.sequence.length →
            ((j : Int) < cexChunk.seq_focus_pos -
                (cexChunk.after_context_seq.length : Int) ∨
              cexChunk.seq_focus_pos +
                (cexChunk.before_context_seq.length : Int) < (j : Int)) →
            ∀ i : Nat, cexChunk.seq_to_sig_map.getD j 0 ≤ (i : Int) →
              (i : Int) < cexChunk.seq_to_sig_map.getD (j + 1) 0 →
              t'.getD i [] = t.getD i [])) :=
  ⟨cexChunk_valid, by decide,
    mask_focus_base_frame cexChunk_valid (by decide) (by decide)⟩

theorem zip_take' (a : List α) (b : List β) :
    ∀ n, (a.zip b).take n = (a.take n).zip (b.take n) := by
  induction a generalizing b with
  | nil => intro n; simp
  | cons x xs ih =>
    intro n
    cases b with
    | nil => simp
    | cons y ys =>
      cases n with
      | zero => simp
      | succ n' => simp [ih ys n']

theorem zip_drop' (a : List α) (b : List β) :
    ∀ n, (a.zip b).drop n = (a.drop n).zip (b.drop n) := by
  induction a generalizing b with
  | nil => intro n; simp
  | cons x xs ih =>
    intro n
    cases b with
    | nil => simp
    | cons y ys =>
      cases n with
      | zero => simp
      | succ n' => simp [ih ys n']

theorem filterMap_get?_range (l : List α) :
    ∀ n, n ≤ l.length →
      (List.range n).filterMap (fun i => l.get? i) = l.take n := by
  intro n
  induction n with
  | zero => intro h; simp
  | succ n' ih =>
    intro h
    rw [List.range_succ, List.filterMap_append, ih (by omega)]
    have hg : l.get? n' = some l[n'] := by
      rw [List.get?_eq_getElem?, List.getElem?_eq_getElem (by omega)]
    rw [List.take_succ]
    congr 1
    rw [List.filterMap_cons, hg,
      List.getElem?_eq_getElem (show n' < l.length by omega)]
    simp only []
    rfl

theorem permuteList_range (l : List α) :
    permuteList (List.range l.length) l = l := by
  unfold permuteList
  rw [filterMap_get?_range l l.length le_rfl]
  exact List.take_length l

theorem permuteList_perm {perm : List Nat} {l : List α}
    (h : perm.Perm (List.range l.length)) : (permuteList perm l).Perm l := by
  have h2 := h.filterMap (fun i => l.get? i)
  rw [filterMap_get?_range l l.length le_rfl, List.take_length l] at h2
  exact h2

theorem permuteList_length {perm : List Nat} {l : List α}
    (h : ∀ i ∈ perm, i < l.length) :
    (permuteList perm l).length = perm.length := by
  induction perm with
  | nil => rfl
  | cons i rest ih =>
    have hi := h i (List.mem_cons_self i rest)
    unfold permuteList at ih ⊢
    rw [List.filterMap_cons]
    rw [List.get?_eq_getElem?, List.getElem?_eq_getElem hi]
    simp only [List.length_cons]
    rw [ih (fun i hi2 => h i (List.mem_cons_of_mem _ hi2))]

theorem permuteList_zip {perm : List Nat} (a : List α) (b : List β)
    (ha : ∀ i ∈ perm, i < a.length) (hb : ∀ i ∈ perm, i < b.length) :
    permuteList perm (a.zip b) =
      (permuteList perm a).zip (permuteList perm b) := by
  induction perm with
  | nil => rfl
  | cons i rest ih =>
    have hia := ha i (List.mem_cons_self i rest)
    have hib := hb i (List.mem_cons_self i rest)
    have hiz : i < (a.zip b).length := by
      rw [List.length_zip]; omega
    have hz : (a.zip b).get? i = some (a[i], b[i]) := by
      rw [List.get?_eq_getElem?, List.getElem?_eq_getElem hiz,
        List.getElem_zip]
    have hA : a.get? i = some a[i] := by
      rw [List.get?_eq_getElem?, List.getElem?_eq_getElem hia]
    have hB : b.get? i = some b[i] := by
      rw [List.get?_eq_getElem?, List.getElem?_eq_getElem hib]
    unfold permuteList at ih ⊢
    rw [List.filterMap_cons, List.filterMap_cons, List.filterMap_cons,
      hz, hA, hB]
    simp only []
    rw [ih (fun i hi2 => ha i (List.mem_cons_of_mem _ hi2))
      (fun i hi2 => hb i (List.mem_cons_of_mem _ hi2))]
    rfl

theorem join_chunks (bs : Nat) :
    ∀ (nb : Nat) (l : List γ), l.length ≤ nb * bs →
      ((List.range nb).map (fun i => (l.drop (i * bs)).take bs)).flatten
        = l := by
  intro nb
  induction nb with
  | zero =>
    intro l h
    simp only [Nat.zero_mul, Nat.le_zero] at h
    rw [List.length_eq_zero.mp h]
    simp
  | succ nb' ih =>
    intro l h
    rw [List.range_succ_eq_map, List.map_cons, List.flatten_cons,
      List.map_map]
    simp only [Nat.zero_mul, List.drop_zero]
    have hmap : (List.range nb').map
        ((fun i => (l.drop (i * bs)).take bs) ∘ (fun i => i + 1)) =
        (List.range nb').map
          (fun i => (((l.drop bs).drop (i * bs)).take bs)) := by
      apply List.map_congr_left
      intro i _
      simp only [Function.comp]
      rw [List.drop_drop]
      congr 1
      ring_nf
    rw [hmap, ih (l.drop bs) (by
      rw [List.length_drop]
      have hr : (nb' + 1) * bs = nb' * bs + bs := by ring
      omega)]
    exact List.take_append_drop bs l

theorem nbatches_cover (n bs : Nat) (dl : Bool) (hbs : 0 < bs)
    (h : dl = false ∨ n % bs = 0) : n ≤ remoraNBatches n bs dl * bs := by
  unfold remoraNBatches
  have hdm : n % bs + bs * (n / bs) = n := Nat.mod_add_div n bs
  have hcomm : bs * (n / bs) = n / bs * bs := by ring
  have hlt : n % bs < bs := Nat.mod_lt n hbs
  by_cases hr : 0 < n % bs
  · rcases h with h | h
    · rw [h, if_pos ⟨rfl, hr⟩]
      have hx : (n / bs + 1) * bs = n / bs * bs + bs := by ring
      omega
    · omega
  · have hif : (if dl = false ∧ 0 < n % bs then 1 else 0) = 0 := by
      rw [if_neg]
      rintro ⟨-, h2⟩
      exact hr h2
    rw [hif]
    simp only [Nat.add_zero]
    omega

theorem batchRows_slice (d : RemoraDataset) (md : List (String × Int))
    (hmd : d.read_data = some md) (i : Nat) :
    batchRows (batchAt d i) =
      ((datasetRows d).drop (i * d.batch_size)).take d.batch_size := by
  simp only [batchRows, batchAt, datasetRows, zip4, hmd, Option.map_some',
    Option.getD_some]
  rw [zip_drop', zip_take', zip_drop', zip_take', zip_drop', zip_take']

theorem allBatches_join (d : RemoraDataset) (md : List (String × Int))
    (hmd : d.read_data = some md)
    (hsig : d.sig_tensor.length = d.dataset_len)
    (hseq : d.seq_tensor.length = d.dataset_len)
    (hlab : d.labels.length = d.dataset_len)
    (hmdl : md.length = d.dataset_len)
    (hcover : d.dataset_len ≤ d.n_batches * d.batch_size) :
    ((allBatches d).map batchRows).flatten = datasetRows d := by
  have hrows : (datasetRows d).length = d.dataset_len := by
    simp only [datasetRows, zip4, List.length_zip, hmd, Option.getD_some]
    omega
  unfold allBatches
  rw [List.map_map]
  have hmap : (List.range d.n_batches).map (batchRows ∘ batchAt d) =
      (List.range d.n_batches).map
        (fun i => ((datasetRows d).drop (i * d.batch_size)).take
          d.batch_size) := by
    apply List.map_congr_left
    intro i _
    exact batchRows_slice d md hmd i
  rw [hmap, join_chunks d.batch_size d.n_batches (datasetRows d)
    (by omega)]

/-- Claim C8 (amended): with a permutation applied jointly to all
buffers and the metadata, the multiset of (signal, feature, label,
metadata) rows is unchanged by the shuffle; and concatenating all
batches of a full iteration pass reconstructs that same multiset
provided `drop_last` is off or the batch size divides the dataset
length — with `drop_last` set and a ragged final batch, the
concatenation loses the remainder rows, contrary to the original
claim. -/
theorem dataset_shuffle_rows (d : RemoraDataset) (perm : List Nat)
    (md : List (String × Int)) (hwf : d.wf) (hmd : d.read_data = some md)
    (hrrd : d.return_read_data = true)
    (hperm : perm.Perm (List.range d.dataset_len)) :
    (datasetRows (iterStart d perm)).Perm (datasetRows d) ∧
      ((d.drop_last = false ∨ d.dataset_len % d.batch_size = 0) →
        (((allBatches (iterStart d perm)).map batchRows).flatten).Perm
          (datasetRows d)) := by
  obtain ⟨hbs, hsig, hseq, hlab, hrd, hnb⟩ := hwf
  have hmdl : md.length = d.dataset_len := hrd md hmd
  have hidx : ∀ i ∈ perm, i < d.dataset_len := by
    intro i hi
    exact List.mem_range.mp (hperm.mem_iff.mp hi)
  have hplen : perm.length = d.dataset_len := by
    rw [hperm.length_eq, List.length_range]
  have hrowsd : (datasetRows d).length = d.dataset_len := by
    simp only [datasetRows, zip4, List.length_zip, hmd, Option.getD_some]
    omega
  have hpermrows : perm.Perm (List.range (datasetRows d).length) := by
    rw [hrowsd]; exact hperm
  cases hsh : d.shuffle with
  | false =>
    have hid : iterStart d perm = d := by
      unfold iterStart
      rw [hsh]
      simp
    rw [hid]
    refine ⟨List.Perm.refl _, fun hdl => ?_⟩
    rw [allBatches_join d md hmd hsig hseq hlab hmdl
      (by rw [hnb]; exact nbatches_cover _ _ _ hbs hdl)]
  | true =>
    have hrdeq : (if d.return_read_data then
        d.read_data.map (permuteList perm) else d.read_data) =
        some (permuteList perm md) := by
      rw [hrrd, hmd]
      rfl
    have hd' : iterStart d perm = { d with
        sig_tensor := permuteList perm d.sig_tensor,
        seq_tensor := permuteList perm d.seq_tensor,
        labels := permuteList perm d.labels,
        read_data := some (permuteList perm md) } := by
      unfold iterStart
      rw [hsh]
      simp only [if_true]
      rw [hrdeq]
    rw [hd']
    have hrows' : datasetRows { d with
        sig_tensor := permuteList perm d.sig_tensor,
        seq_tensor := permuteList perm d.seq_tensor,
        labels := permuteList perm d.labels,
        read_data := some (permuteList perm md) } =
        permuteList perm (datasetRows d) := by
      simp only [datasetRows, zip4, hmd, Option.getD_some]
      rw [permuteList_zip d.sig_tensor _
        (fun i hi => by have := hidx i hi; omega)
        (fun i hi => by
          have := hidx i hi
          simp only [List.length_zip, lt_inf_iff, lt_min_iff]
          omega)]
      rw [permuteList_zip d.seq_tensor _
        (fun i hi => by have := hidx i hi; omega)
        (fun i hi => by
          have := hidx i hi
          simp only [List.length_zip, lt_inf_iff, lt_min_iff]
          omega)]
      rw [permuteList_zip d.labels md
        (fun i hi => by have := hidx i hi; omega)
        (fun i hi => by have := hidx i hi; omega)]
    have hpermed : (permuteList perm (datasetRows d)).Perm (datasetRows d) :=
      permuteList_perm hpermrows
    refine ⟨hrows' ▸ hpermed, fun hdl => ?_⟩
    rw [allBatches_join _ (permuteList perm md) rfl
      (by
        show (permuteList perm d.sig_tensor).length = d.dataset_len
        rw [permuteList_length (fun i hi => by have := hidx i hi; omega),
          hplen])
      (by
        show (permuteList perm d.seq_tensor).length = d.dataset_len
        rw [permuteList_length (fun i hi => by have := hidx i hi; omega),
          hplen])
      (by
        show (permuteList perm d.labels).length = d.dataset_len
        rw [permuteList_length (fun i hi => by have := hidx i hi; omega),
          hplen])
      (by
        rw [permuteList_length (fun i hi => by have := hidx i hi; omega),
          hplen])
      (by
        show d.dataset_len ≤ d.n_batches * d.batch_size
        rw [hnb]
        exact nbatches_cover _ _ _ hbs hdl)]
    exact hrows' ▸ hpermed

/-- A three-row dataset with `batch_size = 2` and `drop_last` set
(`n_batches = divmod(3,2).1 = 1`). -/
def cexDataset : RemoraDataset :=
  ⟨2, true, true, true, 3, 1, [[0], [1], [2]], [[], [], []], [0, 0, 0],
    some [("a", 0), ("b", 1), ("c", 2)]⟩

/-- Claim C8 (counterexample): on a shuffled (identity permutation)
three-row dataset with `batch_size = 2` and `drop_last` set, the
concatenation of all batches of a full pass has only two rows, so it is
not the same multiset as the dataset's rows — batch concatenation does
not reconstruct the dataset when `drop_last` drops a ragged final
batch. -/
theorem dataset_batches_drop_rows :
    ([0, 1, 2].Perm (List.range cexDataset.dataset_len)) ∧
    ¬ ((((allBatches (iterStart cexDataset [0, 1, 2])).map
        batchRows).flatten).Perm (datasetRows cexDataset)) := by
  constructor
  · decide
  · decide

/-- A three-row dataset with `batch_size = 2` and `drop_last` off
(`n_batches = 2`). -/
def wDataset : RemoraDataset :=
  ⟨2, true, false, true, 3, 2, [[0], [1], [2]], [[], [], []], [5, 6, 7],
    some [("a", 0), ("b", 1), ("c", 2)]⟩

/-- `wDataset` is well-formed. -/
theorem wDataset_wf : wDataset.wf := by
  refine ⟨by decide, rfl, rfl, rfl, ?_, by decide⟩
  intro md hm
  simp only [wDataset] at hm
  cases hm
  rfl

/-- Witness for the amended C8 on `wDataset` with permutation
`[2,0,1]`. -/
theorem dataset_shuffle_rows_witness :
    wDataset.wf ∧
    ((datasetRows (iterStart wDataset [2, 0, 1])).Perm
        (datasetRows wDataset) ∧
      ((wDataset.drop_last = false ∨
          wDataset.dataset_len % wDataset.batch_size = 0) →
        (((allBatches (iterStart wDataset [2, 0, 1])).map
            batchRows).flatten).Perm (datasetRows wDataset))) :=
  ⟨wDataset_wf,
    dataset_shuffle_rows wDataset [2, 0, 1] [("a", 0), ("b", 1), ("c", 2)]
      wDataset_wf rfl rfl (by decide)⟩

theorem mapExcept_err {f : α → Except ε β} {l : List α} {e : ε}
    (h : mapExcept f l = .error e) : ∃ x ∈ l, f x = .error e := by
  induction l with
  | nil => exact absurd h (by simp [mapExcept])
  | cons x xs ih =>
    unfold mapExcept at h
    cases hx : f x with
    | error e2 =>
      rw [hx] at h
      simp only [Bind.bind, Except.bind] at h
      cases h
      exact ⟨x, List.mem_cons_self x xs, hx⟩
    | ok y =>
      rw [hx] at h
      simp only [Bind.bind, Except.bind] at h
      cases hxs : mapExcept f xs with
      | error e2 =>
        rw [hxs] at h
        cases h
        obtain ⟨x2, hx2, hfx2⟩ := ih hxs
        exact ⟨x2, List.mem_cons_of_mem _ hx2, hfx2⟩
      | ok ys =>
        rw [hxs] at h
        exact absurd h (by simp)

/-- The error messages `RemoraDataset.__init__` can raise. -/
def mkMsgs : List String :=
  "integer division or modulo by zero" ::
    "need at least one array to stack" ::
    "all input arrays must have the same shape" :: downstreamMsgs

theorem mk_err {chunks : List Chunk} {bs : Nat} {sh dl rrd : Bool}
    {e : String} (h : mkRemoraDataset chunks bs sh dl rrd = .error e) :
    e ∈ mkMsgs := by
  unfold mkRemoraDataset at h
  split at h
  · cases h; decide
  · split at h
    · rename_i e2 hme
      cases h
      obtain ⟨c, -, hc⟩ := mapExcept_err hme
      have := seq_nn_err hc
      unfold mkMsgs
      exact List.mem_cons_of_mem _ (List.mem_cons_of_mem _
        (List.mem_cons_of_mem _ this))
    · split at h
      · cases h; decide
      · split at h
        · cases h; decide
        · split at h
          · cases h; decide
          · exact absurd h (by simp)

theorem mk_ok_fields {chunks : List Chunk} {bs : Nat} {sh dl rrd : Bool}
    {d : RemoraDataset} (h : mkRemoraDataset chunks bs sh dl rrd = .ok d) :
    d.sig_tensor = chunks.map (fun c => c.signal) ∧
    d.labels = chunks.map (fun c => c.label) ∧
    d.shuffle = sh ∧ d.drop_last = dl ∧ d.batch_size = bs ∧
    d.dataset_len = chunks.length ∧
    d.n_batches = remoraNBatches chunks.length bs dl ∧
    (rrd = true → d.read_data =
      some (chunks.map (fun c => (c.read_id, c.read_seq_pos)))) ∧
    (rrd = false → d.read_data = none) := by
  unfold mkRemoraDataset at h
  split at h
  · exact absurd h (by simp)
  · split at h
    · exact absurd h (by simp)
    · split at h
      · exact absurd h (by simp)
      · split at h
        · exact absurd h (by simp)
        · split at h
          · exact absurd h (by simp)
          · cases h
            refine ⟨rfl, rfl, rfl, rfl, rfl, rfl, rfl, ?_, ?_⟩
            · intro hr; rw [hr]; simp
            · intro hr; rw [hr]; simp

theorem mkSplit_err {s : List Chunk} {vi bs : Nat} {rrd : Bool} {e : String}
    (h : mkSplit s vi bs rrd = .error e) : e ∈ mkMsgs := by
  unfold mkSplit at h
  split at h
  · cases h; exact mk_err (by assumption)
  · split at h
    · cases h; exact mk_err (by assumption)
    · split at h
      · cases h; exact mk_err (by assumption)
      · exact absurd h (by simp)

theorem mkSplit_ok {s : List Chunk} {vi bs : Nat} {rrd : Bool}
    {dTrn : RemoraDataset} {oVal oValTrn : Option RemoraDataset}
    {out : List Chunk}
    (h : mkSplit s vi bs rrd = .ok (dTrn, oVal, oValTrn, out)) :
    out = s ∧
    (∃ dVal, oVal = some dVal ∧
      mkRemoraDataset (s.take vi) bs false false rrd = .ok dVal) ∧
    mkRemoraDataset (s.drop vi) bs true true rrd = .ok dTrn := by
  unfold mkSplit at h
  split at h
  · exact absurd h (by simp)
  · rename_i dVal hVal
    split at h
    · exact absurd h (by simp)
    · split at h
      · exact absurd h (by simp)
      · rename_i dTrn2 hTrn
        cases h
        exact ⟨rfl, ⟨dVal, rfl, hVal⟩, hTrn⟩

/-- Claim C5 (amended): for `val_prop > 0`, `load_datasets` fails with
the insufficient-validation-data error iff the number of extracted
chunks is smaller than `2 * ⌊1 / val_prop⌋` (the code computes
`int(1 / val_prop) * 2`, which is strictly weaker than the claimed
`2 / val_prop` bound); when it proceeds, it shuffles once and
partitions the shuffled chunks at index `floor(N * val_prop)` into a
validation set and a training set. -/
theorem load_datasets_split {shuf : List Chunk → List Chunk}
    {reads : List RemoraRead} {cc : Int × Int} {bs : Nat} {nc : Option Int}
    {fsl : Bool} {fo : Option Nat} {full : Bool} {lc : List Int}
    {motif : Motif} {bp : Bool} {v : ℚ} {kmer : Nat × Nat} {rrd : Bool}
    {chunks : List Chunk} {hist : List String}
    (hv : 0 < v)
    (hlc : load_chunks reads nc motif lc cc kmer fo fsl bp full =
      .ok (chunks, hist)) :
    (load_datasets shuf reads cc bs nc fsl fo full lc motif bp v kmer rrd =
        .error "Too few chunks to extract validation proportion" ↔
      (chunks.length : Int) < ⌊1 / v⌋ * 2) ∧
    (∀ dTrn oVal oValTrn outChunks,
      load_datasets shuf reads cc bs nc fsl fo full lc motif bp v kmer rrd =
        .ok (dTrn, oVal, oValTrn, outChunks) →
      outChunks = shuf chunks ∧
      (∃ dVal, oVal = some dVal ∧ dVal.sig_tensor =
        ((shuf chunks).take (⌊(chunks.length : ℚ) * v⌋).toNat).map
          (fun c => c.signal)) ∧
      dTrn.sig_tensor =
        ((shuf chunks).drop (⌊(chunks.length : ℚ) * v⌋).toNat).map
          (fun c => c.signal)) := by
  have hnle : ¬ v ≤ 0 := not_le.mpr hv
  simp only [load_datasets]
  rw [hlc]
  simp only []
  rw [if_neg hnle]
  by_cases hth : (chunks.length : Int) < ⌊1 / v⌋ * 2
  · rw [if_pos hth]
    refine ⟨iff_of_true rfl hth, ?_⟩
    intro dTrn oVal oValTrn outChunks h
    exact absurd h (by simp)
  · rw [if_neg hth]
    constructor
    · refine iff_of_false ?_ hth
      intro h
      have := mkSplit_err h
      revert this
      decide
    · intro dTrn oVal oValTrn outChunks h
      obtain ⟨hout, ⟨dVal, hoVal, hVal⟩, hTrn⟩ := mkSplit_ok h
      obtain ⟨hsigV, -⟩ := mk_ok_fields hVal
      obtain ⟨hsigT, -⟩ := mk_ok_fields hTrn
      exact ⟨hout, ⟨dVal, hoVal, hsigV⟩, hsigT⟩

/-- Claim C10: with `val_prop ≤ 0`, `load_datasets` returns `None` for
both the validation and train-as-validation datasets, and the training
dataset is built from every extracted chunk in extraction order with
shuffling and drop-last both disabled. -/
theorem load_datasets_no_split {shuf : List Chunk → List Chunk}
    {reads : List RemoraRead} {cc : Int × Int} {bs : Nat} {nc : Option Int}
    {fsl : Bool} {fo : Option Nat} {full : Bool} {lc : List Int}
    {motif : Motif} {bp : Bool} {v : ℚ} {kmer : Nat × Nat} {rrd : Bool}
    {chunks : List Chunk} {hist : List String}
    (hv : v ≤ 0)
    (hlc : load_chunks reads nc motif lc cc kmer fo fsl bp full =
      .ok (chunks, hist))
    (dTrn : RemoraDataset) (oVal oValTrn : Option RemoraDataset)
    (outChunks : List Chunk)
    (hld : load_datasets shuf reads cc bs nc fsl fo full lc motif bp v kmer
      rrd = .ok (dTrn, oVal, oValTrn, outChunks)) :
    oVal = none ∧ oValTrn = none ∧ outChunks = chunks ∧
    dTrn.sig_tensor = chunks.map (fun c => c.signal) ∧
    dTrn.labels = chunks.map (fun c => c.label) ∧
    dTrn.shuffle = false ∧ dTrn.drop_last = false := by
  simp only [load_datasets] at hld
  rw [hlc] at hld
  simp only [] at hld
  rw [if_pos hv] at hld
  cases hmk : mkRemoraDataset chunks bs false false rrd with
  | error e => rw [hmk] at hld; exact absurd hld (by simp)
  | ok d =>
    rw [hmk] at hld
    cases hld
    obtain ⟨hsig, hlab, hsh, hdl, -⟩ := mk_ok_fields hmk
    exact ⟨rfl, rfl, rfl, hsig, hlab, hsh, hdl⟩

/-- The chunks and histogram extracted from three copies of the
example read. -/
def ex3Pair : List Chunk × List String :=
  ((load_chunks [exRead, exRead, exRead] none cgMotif [] (5, 5) (1, 1) none
    false false true).toOption).getD ([], [])

/-- Claim C5 (counterexample): with 6 extracted chunks and
`val_prop = 3/10`, the claimed failure condition `N < 2 / val_prop`
holds (`6 < 20/3`), yet `load_datasets` succeeds: the code's threshold
is `int(1 / val_prop) * 2 = 6`, not `2 / val_prop`. -/
theorem load_datasets_threshold_cex :
    ((6 : ℚ) < 2 / (3 / 10 : ℚ)) ∧
    (load_chunks [exRead, exRead, exRead] none cgMotif [] (5, 5) (1, 1) none
        false false true).map (fun p => p.1.length) = .ok 6 ∧
    (load_datasets id [exRead, exRead, exRead] (5, 5) 2 none false none true
        [] cgMotif false (3 / 10) (1, 1) true).isOk = true := by
  refine ⟨by norm_num, by rfl, ?_⟩
  simp only [load_datasets]
  rw [show load_chunks [exRead, exRead, exRead] none cgMotif [] (5, 5) (1, 1)
    none false false true = .ok (ex3Pair.1, ex3Pair.2) from rfl]
  simp only []
  rw [if_neg (by norm_num : ¬ (3 / 10 : ℚ) ≤ 0)]
  rw [if_neg (show ¬ ((ex3Pair.1.length : Int) < ⌊1 / (3 / 10 : ℚ)⌋ * 2) by
    rw [show ex3Pair.1.length = 6 from rfl]
    norm_num)]
  rw [show (⌊(ex3Pair.1.length : ℚ) * (3 / 10)⌋).toNat = 1 by
    rw [show ex3Pair.1.length = 6 from rfl]
    norm_num]
  rfl

/-- Witness for the amended C5 at `val_prop = 1/2` on six chunks. -/
theorem load_datasets_split_witness :
    (0 : ℚ) < 1 / 2 ∧
    ((load_datasets id [exRead, exRead, exRead] (5, 5) 2 none false none true
        [] cgMotif false (1 / 2) (1, 1) true =
        .error "Too few chunks to extract validation proportion" ↔
      (ex3Pair.1.length : Int) < ⌊1 / (1 / 2 : ℚ)⌋ * 2) ∧
    (∀ dTrn oVal oValTrn outChunks,
      load_datasets id [exRead, exRead, exRead] (5, 5) 2 none false none true
        [] cgMotif false (1 / 2) (1, 1) true =
        .ok (dTrn, oVal, oValTrn, outChunks) →
      outChunks = id ex3Pair.1 ∧
      (∃ dVal, oVal = some dVal ∧ dVal.sig_tensor =
        ((id ex3Pair.1).take
          (⌊(ex3Pair.1.length : ℚ) * (1 / 2)⌋).toNat).map
            (fun c => c.signal)) ∧
      dTrn.sig_tensor =
        ((id ex3Pair.1).drop
          (⌊(ex3Pair.1.length : ℚ) * (1 / 2)⌋).toNat).map
            (fun c => c.signal))) :=
  ⟨by norm_num,
    @load_datasets_split id [exRead, exRead, exRead] (5, 5) 2 none false none
      true [] cgMotif false (1 / 2) (1, 1) true ex3Pair.1 ex3Pair.2
      (by norm_num) rfl⟩

/-- The result quadruple of a `val_prop = 0` run on the example read. -/
def ex10Quad : RemoraDataset × Option RemoraDataset ×
    Option RemoraDataset × List Chunk :=
  ((load_datasets id [exRead] (5, 5) 2 none false none true [] cgMotif false
    0 (1, 1) true).toOption).getD
      (⟨0, false, false, false, 0, 0, [], [], [], none⟩, none, none, [])

/-- Witness for C10: the `val_prop = 0` behaviour on a concrete run. -/
theorem load_datasets_no_split_witness :
    (0 : ℚ) ≤ 0 ∧
    (ex10Quad.2.1 = none ∧ ex10Quad.2.2.1 = none ∧
      ex10Quad.2.2.2 = exChunksPair.1 ∧
      ex10Quad.1.sig_tensor = exChunksPair.1.map (fun c => c.signal) ∧
      ex10Quad.1.labels = exChunksPair.1.map (fun c => c.label) ∧
      ex10Quad.1.shuffle = false ∧ ex10Quad.1.drop_last = false) :=
  ⟨le_refl 0,
    @load_datasets_no_split id [exRead] (5, 5) 2 none false none true []
      cgMotif false 0 (1, 1) true exChunksPair.1 exChunksPair.2 (le_refl 0)
      rfl ex10Quad.1 ex10Quad.2.1 ex10Quad.2.2.1 ex10Quad.2.2.2 rfl⟩
